import Mathlib

/-!
# Verification of the Sheltr comprehensive route calculator

A shallow embedding of `src/backend/comprehensive_route_calculator.py`
(class `ComprehensiveFloodRiskRouter`) together with proofs about it.

Modelling conventions:
* Python floats are modelled as exact rationals (`ℚ`); `float('inf')` is the
  `Cost.inf` constructor.  All arithmetic the claims speak about (sums, means,
  minima) is exact-arithmetic in the spec as well.
* Node keys are coordinate strings exactly as in the source; parsing a key
  (`map(float, s.split(','))`) is modelled by `parseCoords`, which returns
  `none` where Python raises `ValueError`.
* Functions that can raise in Python are modelled in `Except String`.
* `networkx.Graph` is modelled as a list of undirected edges with attribute
  records; `add_edge` replaces the attributes of an existing edge in place
  (as networkx does) and otherwise appends.
-/

set_option maxHeartbeats 1000000

/-- A cost value as used by the router: a finite float (modelled as `ℚ`) or
`float('inf')`. -/
inductive Cost where
  | fin : ℚ → Cost
  | inf : Cost
deriving DecidableEq

/-- Order on costs: `inf` is the top element, finite values compare as in `ℚ`. -/
def Cost.le : Cost → Cost → Prop
  | _, .inf => True
  | .inf, .fin _ => False
  | .fin a, .fin b => a ≤ b

instance (a b : Cost) : Decidable (Cost.le a b) := by
  cases a <;> cases b <;> simp only [Cost.le] <;> infer_instance

/-- Strict order on costs. -/
def Cost.lt : Cost → Cost → Prop
  | .inf, _ => False
  | .fin _, .inf => True
  | .fin a, .fin b => a < b

instance (a b : Cost) : Decidable (Cost.lt a b) := by
  cases a <;> cases b <;> simp only [Cost.lt] <;> infer_instance

/-- The attribute record the source attaches to every graph edge
(`weight=`, `segment_id=`, `distance=`, `safety_prob=`). -/
structure EdgeData where
  weight : ℚ
  segment_id : String
  distance : ℚ
  safety_prob : ℚ
deriving DecidableEq

/-- The `networkx.Graph` built by the router: a list of undirected edges
`(u, v, data)`.  Edges are identified by their unordered node pair. -/
abbrev Graph := List (String × String × EdgeData)

/-- Whether `{u, v}` and `{a, b}` are the same unordered node pair. -/
def samePair (u v a b : String) : Prop := (u = a ∧ v = b) ∨ (u = b ∧ v = a)

instance (u v a b : String) : Decidable (samePair u v a b) := by
  unfold samePair; infer_instance

/-- `networkx.Graph.add_edge`: if the unordered pair is already present its
attributes are replaced in place, otherwise the edge is appended. -/
def addEdge : Graph → String → String → EdgeData → Graph
  | [], u, v, d => [(u, v, d)]
  | e :: rest, u, v, d =>
    if samePair u v e.1 e.2.1 then (e.1, e.2.1, d) :: rest
    else e :: addEdge rest u v d

/-- Attribute lookup `self.graph[u][v]`: the data of the edge on pair `{u,v}`,
if present. -/
def findEdge : Graph → String → String → Option EdgeData
  | [], _, _ => none
  | e :: rest, u, v =>
    if samePair u v e.1 e.2.1 then some e.2.2 else findEdge rest u v

/-- `self.graph.has_edge(u, v)`. -/
def hasEdge (g : Graph) (u v : String) : Prop := findEdge g u v ≠ none

instance (g : Graph) (u v : String) : Decidable (hasEdge g u v) :=
  if h : findEdge g u v = none then .isFalse (fun hc => hc h)
  else .isTrue h

/-- Helper for `nodesOf`: append a node if it is not present yet. -/
def insertNode (acc : List String) (x : String) : List String :=
  if x ∈ acc then acc else acc ++ [x]

/-- `self.graph.nodes()`: every edge endpoint, in first-insertion order
(networkx keeps nodes in the order they were first added). -/
def nodesOf (g : Graph) : List String :=
  g.foldl (fun acc e => insertNode (insertNode acc e.1) e.2.1) []

/-- `self.graph.neighbors(u)`: the opposite endpoints of the edges incident
to `u`, in edge order.  A self-loop contributes `u` once, as in networkx. -/
def neighbors (g : Graph) (u : String) : List String :=
  g.foldr (fun e acc =>
    if e.1 = u then e.2.1 :: acc
    else if e.2.1 = u then e.1 :: acc
    else acc) []

/-! ## Parsing coordinate keys

`float(s)` on the decimal literals that occur as coordinate components;
inputs that are not optionally-signed decimal numerals yield `none`, where
Python raises `ValueError`. -/

/-- Parse a non-empty all-digit character list. -/
def parseDigits : List Char → Option ℕ
  | [] => none
  | cs =>
    if cs.all Char.isDigit then
      some (cs.foldl (fun n c => 10 * n + (c.toNat - 48)) 0)
    else none

/-- Parse the unsigned body of a decimal numeral, with an optional single
dot (`"12"`, `"12.5"`, `"12."`, `".5"`). -/
def parseUnsigned (s : String) : Option ℚ :=
  match s.splitOn "." with
  | [w] => (parseDigits w.data).map (fun n => (n : ℚ))
  | [w, f] =>
    if w = "" ∧ f = "" then none
    else
      match (if w = "" then some 0 else parseDigits w.data),
            (if f = "" then some 0 else parseDigits f.data) with
      | some wn, some fn =>
        if f = "" ∨ (f.data.all Char.isDigit) then
          some ((wn : ℚ) + mkRat fn (10 ^ f.length))
        else none
      | _, _ => none
  | _ => none

/-- `float(s)`, restricted to optionally-signed decimal numerals. -/
def pyFloat (s : String) : Option ℚ :=
  if s.startsWith "-" then (parseUnsigned (s.drop 1)).map (fun q => -q)
  else if s.startsWith "+" then parseUnsigned (s.drop 1)
  else parseUnsigned s

/-- `x, y = map(float, s.split(','))`: succeeds exactly when the key splits
into two parseable components. -/
def parseCoords (s : String) : Option (ℚ × ℚ) :=
  match s.splitOn "," with
  | [a, b] =>
    match pyFloat a, pyFloat b with
    | some x, some y => some (x, y)
    | _, _ => none
  | _ => none

/-! ## The router state and the graph builder -/

/-- One record of `self.graph_data` (a `segments_graph*.csv` row), with
`segment_id = str(row['road_segment_id'])` already applied. -/
structure EdgeRow where
  road_segment_id : String
  from_node : String
  to_node : String
  cost : ℚ
deriving DecidableEq

/-- The router state that the graph builder and solver consume:
`self.graph_data`, `self.safety_weights`, `self.connected_components` (as
computed by `analyze_network_structure`) and `self.segment_id_map`. -/
structure Router where
  graph_data : List EdgeRow
  safety_weights : List (String × ℚ)
  connected_components : List (List String)
  segment_id_map : List (String × String)
deriving DecidableEq

/-- Python `dict.get(k, dflt)`. -/
def dictGetD (m : List (String × ℚ)) (k : String) (dflt : ℚ) : ℚ :=
  (List.lookup k m).getD dflt

/-- Python `max(c₀ :: rest, key=len)`: the first list of maximal length
(later entries replace only when strictly longer). -/
def maxByLen (c₀ : List String) (rest : List (List String)) : List String :=
  rest.foldl (fun best c => if best.length < c.length then c else best) c₀

/-- The component `create_enhanced_graph` routes on: among the components of
length at least `min_component_size`, the first one of maximal length;
`none` when no component qualifies. -/
def selectedComponent (comps : List (List String)) (min_component_size : ℕ) :
    Option (List String) :=
  match comps.filter (fun c => min_component_size ≤ c.length) with
  | [] => none
  | c :: cs => some (maxByLen c cs)

/-- The edge-weight branch of `create_enhanced_graph` (lines 141-158):
the strategy dispatch on `cost_function`, with
`safety_prob = self.safety_weights.get(segment_id, 0.5)`. -/
def edgeWeight (safety_weights : List (String × ℚ)) (cost_function : String)
    (segment_id : String) (distance : ℚ) : ℚ :=
  if cost_function = "distance" then distance
  else if cost_function = "safety" then
    (1 - dictGetD safety_weights segment_id (mkRat 1 2)) * 1000
  else if cost_function = "combined" then
    distance + (1 - dictGetD safety_weights segment_id (mkRat 1 2)) * 1000
  else if cost_function = "flood_risk" then
    (1 - dictGetD safety_weights segment_id (mkRat 1 2)) * 10000 +
      distance * (mkRat 1 10)
  else distance

/-- The attribute record attached by `self.graph.add_edge(...)` for a row. -/
def rowData (r : Router) (cost_function : String) (row : EdgeRow) : EdgeData :=
  { weight := edgeWeight r.safety_weights cost_function row.road_segment_id row.cost
    segment_id := row.road_segment_id
    distance := row.cost
    safety_prob := dictGetD r.safety_weights row.road_segment_id (mkRat 1 2) }

/-- The body of the `for _, row in self.graph_data.iterrows()` loop of
`create_enhanced_graph`: skip rows with an endpoint outside the selected
component, otherwise `add_edge` with the strategy weight. -/
def builderStep (r : Router) (cost_function : String) (largest : List String)
    (g : Graph) (row : EdgeRow) : Graph :=
  if row.from_node ∈ largest ∧ row.to_node ∈ largest then
    addEdge g row.from_node row.to_node (rowData r cost_function row)
  else g

/-- `create_enhanced_graph(cost_function, min_component_size)`: select the
largest adequately-sized component, then add every edge row whose endpoints
both lie in it, weighted per the cost function.  When no component
qualifies the function returns the empty graph (source line 122). -/
def create_enhanced_graph (r : Router) (cost_function : String)
    (min_component_size : ℕ) : Graph :=
  match selectedComponent r.connected_components min_component_size with
  | none => []
  | some largest =>
    r.graph_data.foldl (builderStep r cost_function largest) []

/-! ## The nearest-node locator

`find_closest_nodes` computes `np.sqrt((tx-nx)**2 + (ty-ny)**2)` for every
node and sorts ascending by it.  Since `np.sqrt` is strictly monotone on
nonnegative inputs, sorting and nearest-selection are unchanged if we carry
the squared distance instead; the second pair component below is therefore
the squared Euclidean distance.  The square root itself is applied nowhere
else in the pipeline (the value is only printed). -/

/-- Squared Euclidean distance between two planar points. -/
def sqDist (q n : ℚ × ℚ) : ℚ :=
  (q.1 - n.1) * (q.1 - n.1) + (q.2 - n.2) * (q.2 - n.2)

/-- The `for node in self.graph.nodes()` loop of `find_closest_nodes`: parse
each node key and record its (squared) distance to the target, failing at
the first unparseable node key exactly as Python raises there. -/
def nodeDists (tx ty : ℚ) : List String → Except String (List (String × ℚ))
  | [] => .ok []
  | n :: rest =>
    match parseCoords n with
    | none => .error "ValueError: could not convert string to float"
    | some nc =>
      match nodeDists tx ty rest with
      | .error e => .error e
      | .ok l => .ok ((n, sqDist (tx, ty) nc) :: l)

/-- Stable insertion into a list sorted ascending by the second component
(equal keys keep earlier elements first, as Python's stable sort does). -/
def insertSorted (x : String × ℚ) : List (String × ℚ) → List (String × ℚ)
  | [] => [x]
  | y :: ys => if x.2 < y.2 then x :: y :: ys else y :: insertSorted x ys

/-- `distances.sort(key=lambda x: x[1])`: a stable sort ascending by the
distance component. -/
def sortPairs (l : List (String × ℚ)) : List (String × ℚ) :=
  l.foldl (fun acc x => insertSorted x acc) []

/-- `find_closest_nodes(target_coords, num_candidates)` (source lines
181-193): parse the query, scan all nodes, sort by distance, return the
first `num_candidates`.  Raising paths are modelled as `.error`. -/
def find_closest_nodes (g : Graph) (target_coords : String)
    (num_candidates : ℕ) : Except String (List (String × ℚ)) :=
  match parseCoords target_coords with
  | none => .error "ValueError: could not convert string to float"
  | some tc =>
    match nodeDists tc.1 tc.2 (nodesOf g) with
    | .error e => .error e
    | .ok dists => .ok ((sortPairs dists).take num_candidates)

/-! ## Path details -/

/-- One entry of the `segments` list built by `_get_path_details`. -/
structure Segment where
  segment_id : String
  from_node : String
  to_node : String
  distance : ℚ
  safety_prob : ℚ
deriving DecidableEq

/-- A Python value as it occurs in the dictionaries the router returns.
`DVal.sqrt q` stands for the float `np.sqrt(q)` (for `q ≥ 0`): the router
never computes with that value again, so representing it symbolically is
exact. -/
inductive DVal where
  | num : Cost → DVal
  | sqrt : ℚ → DVal
  | bool : Bool → DVal
  | str : String → DVal
  | strList : List String → DVal
  | segs : List Segment → DVal
  | dict : List (String × DVal) → DVal

/-- A Python dictionary with the keys in insertion order. -/
abbrev PyDict := List (String × DVal)

/-- Reading `d[k]`: `none` models a `KeyError`. -/
def dictGetV (d : PyDict) (k : String) : Option DVal := List.lookup k d

/-- Segment-id resolution in `_get_path_details` (lines 289-291): translate
through `self.segment_id_map` when the id is present there. -/
def resolveSegId (m : List (String × String)) (sid : String) : String :=
  match List.lookup sid m with
  | some t => t
  | none => sid

/-- The segment record appended for a traversed edge. -/
def mkSegment (r : Router) (a b : String) (e : EdgeData) : Segment :=
  { segment_id := resolveSegId r.segment_id_map e.segment_id
    from_node := a
    to_node := b
    distance := e.distance
    safety_prob := e.safety_prob }

/-- The `for i in range(len(path) - 1)` loop of `_get_path_details`: a
segment record for every consecutive pair that is a graph edge; pairs
without an edge are skipped (`if self.graph.has_edge(...)`). -/
def pathSegments (r : Router) (g : Graph) : List String → List Segment
  | a :: b :: rest =>
    (match findEdge g a b with
     | some e => [mkSegment r a b e]
     | none => []) ++ pathSegments r g (b :: rest)
  | _ => []

/-- Python `min(l)` under the source's `if l else 0` guard. -/
def pyMin : List ℚ → ℚ
  | [] => 0
  | x :: xs => xs.foldl min x

/-- Python `max(l)` under the source's `if l else 0` guard. -/
def pyMax : List ℚ → ℚ
  | [] => 0
  | x :: xs => xs.foldl max x

/-- `np.mean(l)`. -/
def npMean (l : List ℚ) : ℚ := l.sum / l.length

/-- The square of `np.std(l)`: the population variance
`mean((x - mean(l))**2)`.  `np.std` itself is the square root of this. -/
def npStdSq (l : List ℚ) : ℚ :=
  (l.map (fun x => (x - npMean l) * (x - npMean l))).sum / l.length

/-- `_get_path_details(path)` (source lines 273-310).  A path with fewer
than two nodes yields the three-key early-return dictionary of line 276;
otherwise all six keys are present.  The `safety_std` value is
`np.std(safety_probs)`, i.e. the square root of `npStdSq`. -/
def _get_path_details (r : Router) (g : Graph) (path : List String) : PyDict :=
  if path.length < 2 then
    [("segments", .segs []),
     ("total_distance", .num (.fin 0)),
     ("avg_safety", .num (.fin 0))]
  else
    let segments := pathSegments r g path
    let total_distance := (segments.map Segment.distance).sum
    let safety_probs := segments.map Segment.safety_prob
    [("segments", .segs segments),
     ("total_distance", .num (.fin total_distance)),
     ("avg_safety", .num (.fin (if safety_probs = [] then 0 else npMean safety_probs))),
     ("min_safety", .num (.fin (if safety_probs = [] then 0 else pyMin safety_probs))),
     ("max_safety", .num (.fin (if safety_probs = [] then 0 else pyMax safety_probs))),
     ("safety_std", if safety_probs = [] then .num (.fin 0) else .sqrt (npStdSq safety_probs))]

/-! ## Dijkstra's algorithm

The priority queue `pq` is a `heapq` of `(distance, node)` tuples; `heappop`
returns the least tuple under Python's lexicographic tuple order (ties on
distance are broken by string comparison of the node keys).  We model the
heap as the list of its entries and popping as removing the least entry;
this has exactly the observable behaviour of the binary heap. -/

/-- Python tuple order on `(float, str)` heap entries, strictly. -/
def entryLt (a b : ℚ × String) : Prop := a.1 < b.1 ∨ (a.1 = b.1 ∧ a.2 < b.2)

instance (a b : ℚ × String) : Decidable (entryLt a b) := by
  unfold entryLt; infer_instance

/-- The least entry among `e :: l` (leftmost on ties, which only duplicates
can produce). -/
def minEntry (e : ℚ × String) (l : List (ℚ × String)) : ℚ × String :=
  l.foldl (fun m x => if entryLt x m then x else m) e

/-- `heapq.heappop`: remove and return the least entry; `none` on the empty
heap (the `while pq:` guard). -/
def popMin (pq : List (ℚ × String)) :
    Option ((ℚ × String) × List (ℚ × String)) :=
  match pq with
  | [] => none
  | e :: rest =>
    let m := minEntry e rest
    some (m, (e :: rest).erase m)

/-- The mutable state of `dijkstra_shortest_path`'s main loop:
`distances`, `previous`, `visited` and the priority queue.  The two maps
are total functions; keys the source never creates map to `inf` / `None`
and are never read on the source's executions. -/
structure DState where
  d : String → Cost
  prev : String → Option String
  visited : List String
  pq : List (ℚ × String)

/-- `distances = {node: float('inf') ...}; distances[start] = 0`. -/
def initD (start : String) : String → Cost :=
  fun v => if v = start then .fin 0 else .inf

/-- The body of `for neighbor in self.graph.neighbors(current_node)` for a
single neighbor `y` of `u`, where `c` is the popped distance of `u`:
skip visited neighbors, otherwise relax and push on strict improvement. -/
def relaxOne (g : Graph) (u : String) (c : ℚ) (st : DState) (y : String) :
    DState :=
  if y ∈ st.visited then st
  else
    match findEdge g u y with
    | none => st
    | some e =>
      let new_dist := c + e.weight
      if Cost.lt (.fin new_dist) (st.d y) then
        { st with
          d := fun v => if v = y then .fin new_dist else st.d v
          prev := fun v => if v = y then some u else st.prev v
          pq := st.pq ++ [(new_dist, y)] }
      else st

/-- Relax all neighbors of `u` in adjacency order. -/
def relaxAll (g : Graph) (u : String) (c : ℚ) (st : DState) : DState :=
  (neighbors g u).foldl (relaxOne g u c) st

/-- The `while pq:` loop (source lines 227-251): pop the least entry, skip
it if already visited, mark visited, stop early on the target, otherwise
relax the neighbors.  The loop runs at most `|nodes|*(|edges|+1) + 1`
iterations (each iteration removes one entry, and entries are only pushed
when a node is newly settled), so with that much fuel the fuel never
expires; the fuel argument only makes termination structural. -/
def dijkstraLoop (g : Graph) (tgt : String) : ℕ → DState → DState
  | 0, st => st
  | n + 1, st =>
    match popMin st.pq with
    | none => st
    | some (m, rest) =>
      if m.2 ∈ st.visited then dijkstraLoop g tgt n { st with pq := rest }
      else
        let st1 := { st with pq := rest, visited := m.2 :: st.visited }
        if m.2 = tgt then st1
        else dijkstraLoop g tgt n (relaxAll g m.2 m.1 st1)

/-- Fuel that provably outlasts the loop (see `dijkstraLoop`). -/
def dijkstraFuel (g : Graph) : ℕ := (nodesOf g).length * (g.length + 1) + 1

/-- The initial loop state: `distances[start] = 0`, `pq = [(0, start)]`. -/
def initState (start : String) : DState :=
  { d := initD start, prev := fun _ => none, visited := [], pq := [(0, start)] }

/-- Run the search loop from the initial state. -/
def runDijkstra (g : Graph) (start tgt : String) : DState :=
  dijkstraLoop g tgt (dijkstraFuel g) (initState start)

/-- Path reconstruction (source lines 259-264): follow `previous` links from
the target and reverse.  The walk visits pairwise distinct settled nodes, so
it takes at most `|nodes| + 1` steps; the fuel only makes that explicit. -/
def walkPrev (prev : String → Option String) : ℕ → String → List String
  | 0, _ => []
  | n + 1, cur =>
    cur :: (match prev cur with
            | none => []
            | some p => walkPrev prev n p)

/-- The node-snapping step of `dijkstra_shortest_path` (lines 204-215): keep
an exact graph node, otherwise substitute `find_closest_nodes(s, 1)[0][0]`,
propagating the `ValueError` of an unparseable key and the `IndexError` of
indexing an empty candidate list. -/
def snapNode (g : Graph) (s : String) : Except String String :=
  if s ∈ nodesOf g then .ok s
  else
    match find_closest_nodes g s 1 with
    | .error e => .error e
    | .ok [] => .error "IndexError: list index out of range"
    | .ok (c :: _) => .ok c.1

/-- `dijkstra_shortest_path(start, end)` (source lines 195-271): snap both
endpoints, run the loop, and either report the no-path outcome
`([], inf, {})` or reconstruct the path and its details. -/
def dijkstra_shortest_path (r : Router) (g : Graph) (start0 end0 : String) :
    Except String (List String × Cost × PyDict) :=
  match snapNode g start0 with
  | .error e => .error e
  | .ok start =>
    match snapNode g end0 with
    | .error e => .error e
    | .ok tgt =>
      let st := runDijkstra g start tgt
      if st.d tgt = Cost.inf then .ok ([], Cost.inf, [])
      else
        let path := (walkPrev st.prev ((nodesOf g).length + 2) tgt).reverse
        .ok (path, st.d tgt, _get_path_details r g path)

/-- The failure dictionary of `find_optimal_route` (source lines 327-333). -/
def failureDict : PyDict :=
  [("success", .bool false),
   ("message", .str "No path found between start and end points"),
   ("path", .strList []),
   ("total_cost", .num .inf),
   ("path_details", .dict [])]

/-- The tail of `find_optimal_route` (source lines 326-350): turn the
solver outcome into the result dictionary.  Reading a key absent from
`path_details` is a `KeyError`, modelled as `.error`. -/
def routeStats (cost_function : String)
    (out : Except String (List String × Cost × PyDict)) :
    Except String PyDict :=
  match out with
  | .error e => .error e
  | .ok (path, total_cost, path_details) =>
    if path = [] then .ok failureDict
    else
      match dictGetV path_details "segments", dictGetV path_details "total_distance",
            dictGetV path_details "avg_safety", dictGetV path_details "min_safety",
            dictGetV path_details "max_safety", dictGetV path_details "safety_std" with
      | some (.segs segments), some td, some avg, some mn, some mx, some sd =>
        .ok [("success", .bool true),
             ("path", .strList path),
             ("total_cost", .num total_cost),
             ("path_details", .dict path_details),
             ("cost_function", .str cost_function),
             ("num_segments", .num (.fin segments.length)),
             ("total_distance", td),
             ("avg_safety", avg),
             ("min_safety", mn),
             ("max_safety", mx),
             ("safety_std", sd)]
      | _, _, _, _, _, _ => .error "KeyError"

/-- `find_optimal_route(start, end, cost_function)` (source lines 312-350):
rebuild the graph for the strategy, run the solver, assemble the result. -/
def find_optimal_route (r : Router) (start tgt cost_function : String) :
    Except String PyDict :=
  routeStats cost_function
    (dijkstra_shortest_path r (create_enhanced_graph r cost_function 2)
      start tgt)

/-! ## Basic lemmas about the graph structure -/

theorem samePair_refl (u v : String) : samePair u v u v := Or.inl ⟨rfl, rfl⟩

theorem samePair_symm {u v a b : String} (h : samePair u v a b) :
    samePair a b u v := by
  unfold samePair at *; tauto

theorem samePair_trans {a b u v x y : String}
    (h1 : samePair a b u v) (h2 : samePair u v x y) : samePair a b x y := by
  unfold samePair at *
  rcases h1 with ⟨rfl, rfl⟩ | ⟨rfl, rfl⟩ <;>
    rcases h2 with ⟨rfl, rfl⟩ | ⟨rfl, rfl⟩ <;> tauto

theorem findEdge_addEdge_same {a b u v : String} (g : Graph) (d : EdgeData)
    (h : samePair a b u v) : findEdge (addEdge g u v d) a b = some d := by
  induction g with
  | nil => simp [addEdge, findEdge, h]
  | cons e rest ih =>
    by_cases hrep : samePair u v e.1 e.2.1
    · rw [addEdge, if_pos hrep, findEdge, if_pos (samePair_trans h hrep)]
    · rw [addEdge, if_neg hrep, findEdge, if_neg, ih]
      intro hab
      exact hrep (samePair_trans (samePair_symm h) hab)

theorem findEdge_addEdge_ne {a b u v : String} (g : Graph) (d : EdgeData)
    (h : ¬ samePair a b u v) :
    findEdge (addEdge g u v d) a b = findEdge g a b := by
  induction g with
  | nil =>
    simp only [addEdge, findEdge]
    rw [if_neg h]
  | cons e rest ih =>
    by_cases hrep : samePair u v e.1 e.2.1
    · rw [addEdge, if_pos hrep]
      show (if samePair a b e.1 e.2.1 then some d else findEdge rest a b) = _
      rw [findEdge]
      have hne : ¬ samePair a b e.1 e.2.1 := fun hab =>
        h (samePair_trans hab (samePair_symm hrep))
      rw [if_neg hne, if_neg hne]
    · rw [addEdge, if_neg hrep, findEdge, findEdge]
      split
      · rfl
      · exact ih

theorem mem_addEdge {e : String × String × EdgeData} {g : Graph}
    {u v : String} {d : EdgeData} (h : e ∈ addEdge g u v d) :
    e.2.2 = d ∨ e ∈ g := by
  induction g with
  | nil => simp [addEdge] at h; simp [h]
  | cons e0 rest ih =>
    rw [addEdge] at h
    split at h
    · rcases List.mem_cons.mp h with rfl | hm
      · exact Or.inl rfl
      · exact Or.inr (List.mem_cons_of_mem _ hm)
    · rcases List.mem_cons.mp h with rfl | hm
      · exact Or.inr (List.mem_cons_self _ _)
      · rcases ih hm with hd | hg
        · exact Or.inl hd
        · exact Or.inr (List.mem_cons_of_mem _ hg)

theorem mem_insertNode {x y : String} {acc : List String} :
    x ∈ insertNode acc y ↔ x ∈ acc ∨ x = y := by
  unfold insertNode
  split
  · rename_i h
    exact ⟨Or.inl, fun hc => hc.elim id (fun hx => hx ▸ h)⟩
  · simp [List.mem_append]

theorem mem_nodesOf_fold (x : String) :
    ∀ (l : Graph) (acc : List String),
      x ∈ l.foldl (fun acc e => insertNode (insertNode acc e.1) e.2.1) acc ↔
        x ∈ acc ∨ ∃ e ∈ l, x = e.1 ∨ x = e.2.1 := by
  intro l
  induction l with
  | nil => simp
  | cons e rest ih =>
    intro acc
    rw [List.foldl_cons, ih, mem_insertNode, mem_insertNode]
    constructor
    · rintro (((h | h) | h) | h)
      · exact Or.inl h
      · exact Or.inr ⟨e, List.mem_cons_self _ _, Or.inl h⟩
      · exact Or.inr ⟨e, List.mem_cons_self _ _, Or.inr h⟩
      · rcases h with ⟨e', he', hx⟩
        exact Or.inr ⟨e', List.mem_cons_of_mem _ he', hx⟩
    · rintro (h | ⟨e', he', hx⟩)
      · exact Or.inl (Or.inl (Or.inl h))
      · rcases List.mem_cons.mp he' with rfl | hmem
        · rcases hx with h1 | h2
          · exact Or.inl (Or.inl (Or.inr h1))
          · exact Or.inl (Or.inr h2)
        · exact Or.inr ⟨e', hmem, hx⟩

theorem mem_nodesOf {x : String} {g : Graph} :
    x ∈ nodesOf g ↔ ∃ e ∈ g, x = e.1 ∨ x = e.2.1 := by
  unfold nodesOf
  rw [mem_nodesOf_fold]
  simp

theorem endpoints_addEdge (x u v : String) (d : EdgeData) (g : Graph) :
    (∃ e ∈ addEdge g u v d, x = e.1 ∨ x = e.2.1) ↔
      x = u ∨ x = v ∨ ∃ e ∈ g, x = e.1 ∨ x = e.2.1 := by
  induction g with
  | nil => simp [addEdge]
  | cons e0 rest ih =>
    rw [addEdge]
    by_cases hrep : samePair u v e0.1 e0.2.1
    · rw [if_pos hrep]
      clear ih
      constructor
      · rintro ⟨e, he, hx⟩
        rcases List.mem_cons.mp he with rfl | hm
        · rcases hrep with ⟨rfl, rfl⟩ | ⟨rfl, rfl⟩ <;> tauto
        · exact Or.inr (Or.inr ⟨e, List.mem_cons_of_mem _ hm, hx⟩)
      · rintro (rfl | rfl | ⟨e, he, hx⟩)
        · refine ⟨(e0.1, e0.2.1, d), List.mem_cons_self _ _, ?_⟩
          rcases hrep with ⟨rfl, rfl⟩ | ⟨rfl, rfl⟩ <;> tauto
        · refine ⟨(e0.1, e0.2.1, d), List.mem_cons_self _ _, ?_⟩
          rcases hrep with ⟨rfl, rfl⟩ | ⟨rfl, rfl⟩ <;> tauto
        · rcases List.mem_cons.mp he with rfl | hm
          · exact ⟨(e.1, e.2.1, d), List.mem_cons_self _ _, hx⟩
          · exact ⟨e, List.mem_cons_of_mem _ hm, hx⟩
    · rw [if_neg hrep]
      constructor
      · rintro ⟨e, he, hx⟩
        rcases List.mem_cons.mp he with rfl | hm
        · exact Or.inr (Or.inr ⟨e, List.mem_cons_self _ _, hx⟩)
        · rcases ih.mp ⟨e, hm, hx⟩ with h | h | ⟨e', he', hx'⟩
          · exact Or.inl h
          · exact Or.inr (Or.inl h)
          · exact Or.inr (Or.inr ⟨e', List.mem_cons_of_mem _ he', hx'⟩)
      · rintro (h | h | ⟨e', he', hx'⟩)
        · rcases ih.mpr (Or.inl h) with ⟨e, he, hx⟩
          exact ⟨e, List.mem_cons_of_mem _ he, hx⟩
        · rcases ih.mpr (Or.inr (Or.inl h)) with ⟨e, he, hx⟩
          exact ⟨e, List.mem_cons_of_mem _ he, hx⟩
        · rcases List.mem_cons.mp he' with rfl | hm
          · exact ⟨e', List.mem_cons_self _ _, hx'⟩
          · rcases ih.mpr (Or.inr (Or.inr ⟨e', hm, hx'⟩)) with ⟨e, he, hx⟩
            exact ⟨e, List.mem_cons_of_mem _ he, hx⟩

theorem mem_nodesOf_addEdge {x u v : String} {g : Graph} {d : EdgeData} :
    x ∈ nodesOf (addEdge g u v d) ↔ x = u ∨ x = v ∨ x ∈ nodesOf g := by
  rw [mem_nodesOf, mem_nodesOf, endpoints_addEdge]

/-! ## Lemmas about the graph builder -/

theorem lookup_mem {k : String} {v : ℚ} :
    ∀ {m : List (String × ℚ)}, List.lookup k m = some v → (k, v) ∈ m := by
  intro m
  induction m with
  | nil => intro h; simp [List.lookup] at h
  | cons kv rest ih =>
    intro h
    rw [List.lookup] at h
    cases hk : (k == kv.1) <;> rw [hk] at h
    · exact List.mem_cons_of_mem _ (ih h)
    · have hkv : kv.2 = v := by
        cases h
        rfl
      have hk1 : k = kv.1 := beq_iff_eq.mp hk
      have : (k, v) = kv := by
        rw [hk1, ← hkv]
      rw [this]
      exact List.mem_cons_self _ _

theorem dictGetD_bounds {m : List (String × ℚ)} (k : String)
    (h : ∀ kv ∈ m, 0 ≤ kv.2 ∧ kv.2 ≤ 1) :
    0 ≤ dictGetD m k (mkRat 1 2) ∧ dictGetD m k (mkRat 1 2) ≤ 1 := by
  unfold dictGetD
  cases hl : List.lookup k m with
  | none =>
    constructor <;> rw [Rat.mkRat_eq_divInt, Rat.divInt_eq_div] <;> norm_num
  | some p => exact h (k, p) (lookup_mem hl)

theorem edgeWeight_nonneg {sw : List (String × ℚ)} (cf sid : String) {dist : ℚ}
    (hd : 0 ≤ dist) (hp : ∀ kv ∈ sw, 0 ≤ kv.2 ∧ kv.2 ≤ 1) :
    0 ≤ edgeWeight sw cf sid dist := by
  obtain ⟨h0, h1⟩ := dictGetD_bounds sid hp
  have h10 : (0 : ℚ) ≤ mkRat 1 10 := by
    rw [Rat.mkRat_eq_divInt, Rat.divInt_eq_div]
    norm_num
  unfold edgeWeight
  split_ifs <;> nlinarith [mul_nonneg hd h10]

theorem builderStep_data {r : Router} {cf : String} {largest : List String}
    {g : Graph} {row : EdgeRow} {e : String × String × EdgeData}
    (he : e ∈ builderStep r cf largest g row) :
    e ∈ g ∨ e.2.2 = rowData r cf row := by
  unfold builderStep at he
  split at he
  · exact (mem_addEdge he).symm
  · exact Or.inl he

theorem foldl_builder_data {r : Router} {cf : String} {largest : List String}
    {e : String × String × EdgeData} :
    ∀ (rows : List EdgeRow) (g₀ : Graph),
      e ∈ rows.foldl (builderStep r cf largest) g₀ →
      e ∈ g₀ ∨ ∃ row ∈ rows, e.2.2 = rowData r cf row := by
  intro rows
  induction rows with
  | nil => intro g₀ h; exact Or.inl h
  | cons row rest ih =>
    intro g₀ h
    rw [List.foldl_cons] at h
    rcases ih _ h with h1 | ⟨row', hr', hd⟩
    · rcases builderStep_data h1 with hg | hd
      · exact Or.inl hg
      · exact Or.inr ⟨row, List.mem_cons_self _ _, hd⟩
    · exact Or.inr ⟨row', List.mem_cons_of_mem _ hr', hd⟩

/-- Every edge stored by the builder carries the attribute record of one of
the edge rows. -/
theorem create_enhanced_graph_data {r : Router} {cf : String} {msz : ℕ}
    {e : String × String × EdgeData} (he : e ∈ create_enhanced_graph r cf msz) :
    ∃ row ∈ r.graph_data, e.2.2 = rowData r cf row := by
  unfold create_enhanced_graph at he
  rcases hsel : selectedComponent r.connected_components msz with _ | largest <;>
    rw [hsel] at he
  · simp at he
  · rcases foldl_builder_data _ _ he with h | h
    · simp at h
    · exact h

theorem foldl_builder_keeps {r : Router} {cf : String} {largest : List String}
    (f t : String) (D : EdgeData) :
    ∀ (rows : List EdgeRow) (g₀ : Graph),
      findEdge g₀ f t = some D →
      (∀ row ∈ rows, samePair f t row.from_node row.to_node →
        rowData r cf row = D) →
      findEdge (rows.foldl (builderStep r cf largest) g₀) f t = some D := by
  intro rows
  induction rows with
  | nil => intro g₀ h _; exact h
  | cons row rest ih =>
    intro g₀ h hkeep
    rw [List.foldl_cons]
    refine ih _ ?_ (fun row2 hm hp => hkeep row2 (List.mem_cons_of_mem _ hm) hp)
    unfold builderStep
    split
    · by_cases hp : samePair f t row.from_node row.to_node
      · rw [findEdge_addEdge_same _ _ hp, hkeep row (List.mem_cons_self _ _) hp]
      · rw [findEdge_addEdge_ne _ _ hp, h]
    · exact h

theorem foldl_builder_adds {r : Router} {cf : String} {largest : List String}
    (row : EdgeRow) :
    ∀ (rows : List EdgeRow) (g₀ : Graph),
      row ∈ rows →
      (∀ row2 ∈ rows, samePair row.from_node row.to_node
        row2.from_node row2.to_node → row2 = row) →
      row.from_node ∈ largest → row.to_node ∈ largest →
      findEdge (rows.foldl (builderStep r cf largest) g₀)
        row.from_node row.to_node = some (rowData r cf row) := by
  intro rows
  induction rows with
  | nil => intro g₀ h; simp at h
  | cons row' rest ih =>
    intro g₀ hmem huniq hf ht
    rw [List.foldl_cons]
    by_cases heq : row' = row
    · subst heq
      refine foldl_builder_keeps _ _ _ rest _ ?_ ?_
      · unfold builderStep
        rw [if_pos ⟨hf, ht⟩, findEdge_addEdge_same _ _ (samePair_refl _ _)]
      · intro row2 hm hp
        rw [huniq row2 (List.mem_cons_of_mem _ hm) hp]
    · have : row ∈ rest := by
        rcases List.mem_cons.mp hmem with h | h
        · exact absurd h.symm heq
        · exact h
      exact ih _ this (fun row2 hm hp => huniq row2 (List.mem_cons_of_mem _ hm) hp) hf ht

/-! ## Concrete data used by witnesses: the spec's square scenario
(4 nodes A(0,0), B(0,10), C(10,10), D(10,0); segment "4" is deliberately
absent from the safety registry to exercise the 0.5 default). -/

def sqRouter : Router :=
  { graph_data :=
      [⟨"1", "0,0", "0,10", 10⟩,
       ⟨"2", "0,0", "10,0", 10⟩,
       ⟨"3", "10,0", "10,10", 10⟩,
       ⟨"4", "0,10", "10,10", 10⟩]
    safety_weights := [("1", mkRat 9 10), ("2", mkRat 1 5), ("3", mkRat 9 10)]
    connected_components := [["0,0", "0,10", "10,10", "10,0"]]
    segment_id_map := [] }

def sqComp : List String := ["0,0", "0,10", "10,10", "10,0"]

/-- C2 (amended): for every edge record whose two endpoints both lie in
the selected component AND whose unordered endpoint pair occurs only once
in the edge list, `create_enhanced_graph` stores an edge whose weight
equals: the raw distance under strategy "distance"; (1-p)*1000 under
"safety"; distance + (1-p)*1000 under "combined"; (1-p)*10000 +
distance*0.1 under "flood_risk"; and the raw distance under any
unrecognized strategy name, where p is the safety probability registered
for the edge's segment id, taken to be 0.5 when that id is absent from the
registry (absence is never an error).  The uniqueness restriction is
necessary: `nx.Graph.add_edge` on an existing unordered pair overwrites
the attributes, so for duplicate pairs only the LAST record's weight is
stored and the unrestricted claim fails (see the counterexample). -/
theorem claim_C2 (r : Router) (cf : String) (largest : List String)
    (row : EdgeRow)
    (hsel : selectedComponent r.connected_components 2 = some largest)
    (hrow : row ∈ r.graph_data)
    (huniq : ∀ row2 ∈ r.graph_data,
      samePair row.from_node row.to_node row2.from_node row2.to_node →
        row2 = row)
    (hfrom : row.from_node ∈ largest) (hto : row.to_node ∈ largest) :
    ∃ d, findEdge (create_enhanced_graph r cf 2) row.from_node row.to_node =
        some d ∧
      d.weight =
        (let p := match List.lookup row.road_segment_id r.safety_weights with
                  | some q => q
                  | none => 1/2
         if cf = "distance" then row.cost
         else if cf = "safety" then (1 - p) * 1000
         else if cf = "combined" then row.cost + (1 - p) * 1000
         else if cf = "flood_risk" then (1 - p) * 10000 + row.cost * (1/10)
         else row.cost) := by
  have hg : create_enhanced_graph r cf 2 =
      r.graph_data.foldl (builderStep r cf largest) [] := by
    unfold create_enhanced_graph
    rw [hsel]
  rw [hg]
  refine ⟨rowData r cf row,
    foldl_builder_adds row r.graph_data [] hrow huniq hfrom hto, ?_⟩
  show edgeWeight r.safety_weights cf row.road_segment_id row.cost = _
  have hmk : mkRat 1 2 = (1 : ℚ)/2 := by
    rw [Rat.mkRat_eq_divInt, Rat.divInt_eq_div]
    norm_num
  have hmk10 : mkRat 1 10 = (1 : ℚ)/10 := by
    rw [Rat.mkRat_eq_divInt, Rat.divInt_eq_div]
    norm_num
  unfold edgeWeight dictGetD
  cases hl : List.lookup row.road_segment_id r.safety_weights <;>
    simp [hl, hmk, hmk10]

/-- Witness for C2: in the square scenario under "flood_risk", the edge
A-D (segment "2", registered probability 0.2) is stored with weight
(1 - 0.2) * 10000 + 10 * 0.1 = 8001. -/
theorem claim_C2_witness :
    selectedComponent sqRouter.connected_components 2 = some sqComp ∧
    (∃ d, findEdge (create_enhanced_graph sqRouter "flood_risk" 2)
        "0,0" "10,0" = some d ∧
      d.weight =
        (let p := match List.lookup "2" sqRouter.safety_weights with
                  | some q => q
                  | none => 1/2
         if "flood_risk" = "distance" then (10 : ℚ)
         else if "flood_risk" = "safety" then (1 - p) * 1000
         else if "flood_risk" = "combined" then 10 + (1 - p) * 1000
         else if "flood_risk" = "flood_risk" then (1 - p) * 10000 + 10 * (1/10)
         else 10)) :=
  ⟨by decide,
   claim_C2 sqRouter "flood_risk" sqComp ⟨"2", "0,0", "10,0", 10⟩
     (by decide) (by decide) (by decide) (by decide) (by decide)⟩

/-- A router whose edge list holds two records for the same unordered
endpoint pair with different costs. -/
def dupRouter : Router :=
  { graph_data :=
      [⟨"1", "0,0", "0,1", 5⟩,
       ⟨"2", "0,1", "0,0", 7⟩]
    safety_weights := []
    connected_components := [["0,0", "0,1"]]
    segment_id_map := [] }

/-- Counterexample to C2 as stated: the first record ⟨"1","0,0","0,1",5⟩
has both endpoints in the selected component, and under strategy
"distance" its formula value is its raw distance 5; yet the built graph
stores weight 7 for that pair, because the later duplicate record
⟨"2","0,1","0,0",7⟩ overwrites the attributes exactly as
`nx.Graph.add_edge` does.  So the claim is false for the earlier of two
records sharing an unordered endpoint pair. -/
theorem claim_C2_counterexample :
    (⟨"1", "0,0", "0,1", 5⟩ : EdgeRow) ∈ dupRouter.graph_data ∧
    selectedComponent dupRouter.connected_components 2 =
      some ["0,0", "0,1"] ∧
    "0,0" ∈ ["0,0", "0,1"] ∧ "0,1" ∈ ["0,0", "0,1"] ∧
    (∀ d, findEdge (create_enhanced_graph dupRouter "distance" 2)
      "0,0" "0,1" = some d → d.weight ≠ 5) ∧
    (∃ d, findEdge (create_enhanced_graph dupRouter "distance" 2)
      "0,0" "0,1" = some d ∧ d.weight = 7) := by
  have hfe : findEdge (create_enhanced_graph dupRouter "distance" 2)
      "0,0" "0,1" = some ⟨7, "2", 7, mkRat 1 2⟩ :=
    of_decide_eq_true (by with_unfolding_all rfl)
  refine ⟨List.mem_cons_self _ _, by decide, by decide, by decide, ?_,
    ⟨7, "2", 7, mkRat 1 2⟩, hfe, rfl⟩
  intro d hd
  rw [hfe] at hd
  injection hd with h
  rw [← h]
  decide

/-- C9: whenever every edge record has a nonnegative distance and every
registered safety probability lies in [0,1], every edge weight stored by
`create_enhanced_graph` is nonnegative, under each of the strategies
"distance", "safety", "combined", "flood_risk" and any unrecognized name
(the strategy `cf` below is universally quantified). -/
theorem claim_C9 (r : Router) (cf : String) (msz : ℕ)
    (e : String × String × EdgeData)
    (hcost : ∀ row ∈ r.graph_data, 0 ≤ row.cost)
    (hprob : ∀ kv ∈ r.safety_weights, 0 ≤ kv.2 ∧ kv.2 ≤ 1)
    (he : e ∈ create_enhanced_graph r cf msz) :
    0 ≤ e.2.2.weight := by
  rcases create_enhanced_graph_data he with ⟨row, hrow, hd⟩
  rw [hd]
  exact edgeWeight_nonneg cf row.road_segment_id (hcost row hrow) hprob

/-- Witness for C9: the stored A-B edge of the square scenario under
"combined" has weight 10 + (1 - 0.9) * 1000 = 110 ≥ 0. -/
theorem claim_C9_witness :
    (∀ row ∈ sqRouter.graph_data, 0 ≤ row.cost) ∧
    (∀ kv ∈ sqRouter.safety_weights, 0 ≤ kv.2 ∧ kv.2 ≤ 1) ∧
    ("0,0", "0,10", (⟨110, "1", 10, mkRat 9 10⟩ : EdgeData)) ∈
      create_enhanced_graph sqRouter "combined" 2 ∧
    0 ≤ ((⟨110, "1", 10, mkRat 9 10⟩ : EdgeData)).weight :=
  ⟨of_decide_eq_true (by with_unfolding_all rfl),
   of_decide_eq_true (by with_unfolding_all rfl),
   of_decide_eq_true (by with_unfolding_all rfl),
   claim_C9 sqRouter "combined" 2 ("0,0", "0,10", ⟨110, "1", 10, mkRat 9 10⟩)
     (of_decide_eq_true (by with_unfolding_all rfl))
     (of_decide_eq_true (by with_unfolding_all rfl))
     (of_decide_eq_true (by with_unfolding_all rfl))⟩

/-! ## Lemmas about path details -/

theorem zip_tail_nil_of_short {path : List String} (h : path.length < 2) :
    path.zip path.tail = [] := by
  match path with
  | [] => rfl
  | [a] => rfl
  | a :: b :: rest => simp at h; omega

theorem pathSegments_eq_filterMap (r : Router) (g : Graph) :
    ∀ path : List String,
      pathSegments r g path =
        (path.zip path.tail).filterMap
          (fun ab => (findEdge g ab.1 ab.2).map (mkSegment r ab.1 ab.2)) := by
  intro path
  induction path with
  | nil => rfl
  | cons a t ih =>
    cases t with
    | nil => rfl
    | cons b rest =>
      show (match findEdge g a b with
            | some e => [mkSegment r a b e]
            | none => []) ++ pathSegments r g (b :: rest) = _
      rw [ih]
      show _ = List.filterMap _ ((a, b) :: (b :: rest).zip rest)
      rw [List.filterMap_cons]
      cases findEdge g a b <;> rfl

theorem pathSegments_map_safety (r : Router) (g : Graph) (path : List String) :
    (pathSegments r g path).map Segment.safety_prob =
      (path.zip path.tail).filterMap
        (fun ab => (findEdge g ab.1 ab.2).map EdgeData.safety_prob) := by
  rw [pathSegments_eq_filterMap, List.map_filterMap]
  apply List.filterMap_congr
  intro ab _
  cases findEdge g ab.1 ab.2 <;> rfl

theorem pathSegments_map_distance (r : Router) (g : Graph) (path : List String) :
    (pathSegments r g path).map Segment.distance =
      (path.zip path.tail).filterMap
        (fun ab => (findEdge g ab.1 ab.2).map EdgeData.distance) := by
  rw [pathSegments_eq_filterMap, List.map_filterMap]
  apply List.filterMap_congr
  intro ab _
  cases findEdge g ab.1 ab.2 <;> rfl

theorem length_filterMap_of_all_some {α β : Type} (f : α → Option β) :
    ∀ l : List α, (∀ x ∈ l, (f x).isSome) →
      (l.filterMap f).length = l.length := by
  intro l
  induction l with
  | nil => intro _; rfl
  | cons a t ih =>
    intro h
    rw [List.filterMap_cons]
    cases hf : f a with
    | none =>
      have := h a (List.mem_cons_self _ _)
      rw [hf] at this
      simp at this
    | some b =>
      rw [List.length_cons, ih (fun x hx => h x (List.mem_cons_of_mem _ hx))]
      rfl

theorem length_zip_tail (path : List String) :
    (path.zip path.tail).length = path.length - 1 := by
  rw [List.length_zip, List.length_tail]
  omega

/-! Folded `min`/`max` as Python's builtins compute them. -/

theorem foldl_min_le_init : ∀ (xs : List ℚ) (z : ℚ), xs.foldl min z ≤ z := by
  intro xs
  induction xs with
  | nil => intro z; exact le_refl z
  | cons a t ih => intro z; exact le_trans (ih (min z a)) (min_le_left _ _)

theorem foldl_min_le_mem :
    ∀ (xs : List ℚ) (z y : ℚ), y ∈ xs → xs.foldl min z ≤ y := by
  intro xs
  induction xs with
  | nil => intro z y h; simp at h
  | cons a t ih =>
    intro z y h
    rcases List.mem_cons.mp h with rfl | hm
    · exact le_trans (foldl_min_le_init t (min z y)) (min_le_right _ _)
    · exact ih (min z a) y hm

theorem foldl_min_mem :
    ∀ (xs : List ℚ) (z : ℚ), xs.foldl min z = z ∨ xs.foldl min z ∈ xs := by
  intro xs
  induction xs with
  | nil => intro z; exact Or.inl rfl
  | cons a t ih =>
    intro z
    rcases ih (min z a) with h | h
    · rw [List.foldl_cons, h]
      rcases min_choice z a with h1 | h1
      · exact Or.inl h1
      · refine Or.inr ?_
        rw [h1]
        exact List.mem_cons_self _ _
    · exact Or.inr (List.mem_cons_of_mem _ h)

theorem pyMin_mem {l : List ℚ} (h : l ≠ []) : pyMin l ∈ l := by
  match l with
  | [] => exact absurd rfl h
  | x :: xs =>
    show xs.foldl min x ∈ x :: xs
    rcases foldl_min_mem xs x with h1 | h1
    · rw [h1]
      exact List.mem_cons_self _ _
    · exact List.mem_cons_of_mem _ h1

theorem pyMin_le {l : List ℚ} {y : ℚ} (hy : y ∈ l) : pyMin l ≤ y := by
  match l with
  | [] => simp at hy
  | x :: xs =>
    show xs.foldl min x ≤ y
    rcases List.mem_cons.mp hy with rfl | hm
    · exact foldl_min_le_init xs y
    · exact foldl_min_le_mem xs x y hm

theorem foldl_max_ge_init : ∀ (xs : List ℚ) (z : ℚ), z ≤ xs.foldl max z := by
  intro xs
  induction xs with
  | nil => intro z; exact le_refl z
  | cons a t ih => intro z; exact le_trans (le_max_left _ _) (ih (max z a))

theorem foldl_max_ge_mem :
    ∀ (xs : List ℚ) (z y : ℚ), y ∈ xs → y ≤ xs.foldl max z := by
  intro xs
  induction xs with
  | nil => intro z y h; simp at h
  | cons a t ih =>
    intro z y h
    rcases List.mem_cons.mp h with rfl | hm
    · exact le_trans (le_max_right _ _) (foldl_max_ge_init t (max z y))
    · exact ih (max z a) y hm

theorem foldl_max_mem :
    ∀ (xs : List ℚ) (z : ℚ), xs.foldl max z = z ∨ xs.foldl max z ∈ xs := by
  intro xs
  induction xs with
  | nil => intro z; exact Or.inl rfl
  | cons a t ih =>
    intro z
    rcases ih (max z a) with h | h
    · rw [List.foldl_cons, h]
      rcases max_choice z a with h1 | h1
      · exact Or.inl h1
      · refine Or.inr ?_
        rw [h1]
        exact List.mem_cons_self _ _
    · exact Or.inr (List.mem_cons_of_mem _ h)

theorem pyMax_mem {l : List ℚ} (h : l ≠ []) : pyMax l ∈ l := by
  match l with
  | [] => exact absurd rfl h
  | x :: xs =>
    show xs.foldl max x ∈ x :: xs
    rcases foldl_max_mem xs x with h1 | h1
    · rw [h1]
      exact List.mem_cons_self _ _
    · exact List.mem_cons_of_mem _ h1

theorem pyMax_ge {l : List ℚ} {y : ℚ} (hy : y ∈ l) : y ≤ pyMax l := by
  match l with
  | [] => simp at hy
  | x :: xs =>
    show y ≤ xs.foldl max x
    rcases List.mem_cons.mp hy with rfl | hm
    · exact foldl_max_ge_init xs y
    · exact foldl_max_ge_mem xs x y hm

/-- Modelled from the spec: the population variance of a list of values,
written independently of the source as the mean of the squares minus the
square of the mean.  The spec's "population standard deviation" is its
square root. -/
def specPopVariance (l : List ℚ) : ℚ :=
  (l.map (fun x => x * x)).sum / l.length -
    (l.sum / l.length) * (l.sum / l.length)

theorem sum_sq_dev (μ : ℚ) :
    ∀ l : List ℚ,
      (l.map (fun x => (x - μ) * (x - μ))).sum =
        (l.map (fun x => x * x)).sum - 2 * μ * l.sum + l.length * (μ * μ) := by
  intro l
  induction l with
  | nil => simp
  | cons a t ih =>
    rw [List.map_cons, List.map_cons, List.sum_cons, List.sum_cons,
      List.sum_cons, ih, List.length_cons]
    push_cast
    ring

theorem npStdSq_eq_specPopVariance {l : List ℚ} (h : l ≠ []) :
    npStdSq l = specPopVariance l := by
  have hn : (l.length : ℚ) ≠ 0 := by
    have : l.length ≠ 0 := fun h0 => h (List.length_eq_zero.mp h0)
    exact_mod_cast this
  unfold npStdSq specPopVariance npMean
  rw [sum_sq_dev]
  field_simp
  ring

theorem dictGetV_cons_self (k : String) (v : DVal) (rest : PyDict) :
    dictGetV ((k, v) :: rest) k = some v := by
  simp [dictGetV, List.lookup]

theorem dictGetV_cons_ne {k k2 : String} (v : DVal) (rest : PyDict)
    (h : ¬ (k == k2) = true) :
    dictGetV ((k2, v) :: rest) k = dictGetV rest k := by
  simp only [dictGetV, List.lookup]
  rw [Bool.eq_false_iff.mpr h]

/-- The six-key dictionary produced for a path of length at least two. -/
theorem details_long (r : Router) (g : Graph) (path : List String)
    (h : ¬ path.length < 2) :
    _get_path_details r g path =
      (let segments := pathSegments r g path
       let safety_probs := segments.map Segment.safety_prob
       [("segments", .segs segments),
        ("total_distance", .num (.fin ((segments.map Segment.distance).sum))),
        ("avg_safety", .num (.fin (if safety_probs = [] then 0
          else npMean safety_probs))),
        ("min_safety", .num (.fin (if safety_probs = [] then 0
          else pyMin safety_probs))),
        ("max_safety", .num (.fin (if safety_probs = [] then 0
          else pyMax safety_probs))),
        ("safety_std", if safety_probs = [] then .num (.fin 0)
          else .sqrt (npStdSq safety_probs))]) := by
  unfold _get_path_details
  rw [if_neg h]

/-- C10: on every input path (solver-produced or not), a consecutive node
pair that is not a graph edge is silently skipped by `_get_path_details`:
it contributes no segment record, no distance and no safety value, and the
function is total (no error); the reported segments, total and mean cover
exactly the consecutive pairs that are actual graph edges. -/
theorem claim_C10 (r : Router) (g : Graph) (path : List String) :
    dictGetV (_get_path_details r g path) "segments" =
      some (.segs ((path.zip path.tail).filterMap
        (fun ab => (findEdge g ab.1 ab.2).map (mkSegment r ab.1 ab.2)))) ∧
    dictGetV (_get_path_details r g path) "total_distance" =
      some (.num (.fin (((path.zip path.tail).filterMap
        (fun ab => (findEdge g ab.1 ab.2).map EdgeData.distance)).sum))) ∧
    dictGetV (_get_path_details r g path) "avg_safety" =
      some (.num (.fin
        (if (path.zip path.tail).filterMap
            (fun ab => (findEdge g ab.1 ab.2).map EdgeData.safety_prob) = []
         then 0
         else npMean ((path.zip path.tail).filterMap
            (fun ab => (findEdge g ab.1 ab.2).map EdgeData.safety_prob))))) := by
  by_cases hs : path.length < 2
  · rw [zip_tail_nil_of_short hs]
    unfold _get_path_details
    rw [if_pos hs]
    exact ⟨rfl, rfl, rfl⟩
  · rw [details_long r g path hs]
    refine ⟨?_, ?_, ?_⟩
    · rw [dictGetV_cons_self, pathSegments_eq_filterMap]
    · rw [dictGetV_cons_ne _ _ (by decide), dictGetV_cons_self,
        pathSegments_map_distance]
    · rw [dictGetV_cons_ne _ _ (by decide), dictGetV_cons_ne _ _ (by decide),
        dictGetV_cons_self, pathSegments_map_safety]

/-- C5: for every path of at least two nodes whose consecutive pairs are
all graph edges, the detail returned by `_get_path_details` has
`total_distance` equal to the sum of the traversed edges' distances,
`avg_safety` equal to the arithmetic mean of the edges' recorded safety
probabilities, `min_safety`/`max_safety` equal to their minimum and
maximum, and `safety_std` equal to their population standard deviation
(the square root of `specPopVariance`). -/
theorem claim_C5 (r : Router) (g : Graph) (path : List String)
    (hlen : 2 ≤ path.length)
    (hedges : ∀ ab ∈ path.zip path.tail, hasEdge g ab.1 ab.2) :
    ∃ probs : List ℚ,
      probs = (path.zip path.tail).filterMap
        (fun ab => (findEdge g ab.1 ab.2).map EdgeData.safety_prob) ∧
      probs.length = path.length - 1 ∧
      dictGetV (_get_path_details r g path) "total_distance" =
        some (.num (.fin (((path.zip path.tail).filterMap
          (fun ab => (findEdge g ab.1 ab.2).map EdgeData.distance)).sum))) ∧
      dictGetV (_get_path_details r g path) "avg_safety" =
        some (.num (.fin (probs.sum / probs.length))) ∧
      (∃ m ∈ probs, dictGetV (_get_path_details r g path) "min_safety" =
        some (.num (.fin m)) ∧ ∀ x ∈ probs, m ≤ x) ∧
      (∃ M ∈ probs, dictGetV (_get_path_details r g path) "max_safety" =
        some (.num (.fin M)) ∧ ∀ x ∈ probs, x ≤ M) ∧
      dictGetV (_get_path_details r g path) "safety_std" =
        some (.sqrt (specPopVariance probs)) := by
  have hall : ∀ ab ∈ path.zip path.tail,
      ((findEdge g ab.1 ab.2).map (mkSegment r ab.1 ab.2)).isSome := by
    intro ab hab
    have h := hedges ab hab
    unfold hasEdge at h
    cases hfe : findEdge g ab.1 ab.2 with
    | none => exact absurd hfe h
    | some e => simp [hfe]
  have hsegs_len : (pathSegments r g path).length = path.length - 1 := by
    rw [pathSegments_eq_filterMap,
      length_filterMap_of_all_some _ _ hall, length_zip_tail]
  refine ⟨(pathSegments r g path).map Segment.safety_prob,
    pathSegments_map_safety r g path, ?_, ?_, ?_, ?_, ?_, ?_⟩
  · rw [List.length_map, hsegs_len]
  all_goals
    have hne : (pathSegments r g path).map Segment.safety_prob ≠ [] := by
      intro h0
      have := congrArg List.length h0
      rw [List.length_map, hsegs_len] at this
      simp at this
      omega
  · rw [details_long r g path (by omega), dictGetV_cons_ne _ _ (by decide),
      dictGetV_cons_self, pathSegments_map_distance]
  · rw [details_long r g path (by omega), dictGetV_cons_ne _ _ (by decide),
      dictGetV_cons_ne _ _ (by decide), dictGetV_cons_self, if_neg hne]
    rfl
  · refine ⟨pyMin ((pathSegments r g path).map Segment.safety_prob),
      pyMin_mem hne, ?_, fun x hx => pyMin_le hx⟩
    rw [details_long r g path (by omega), dictGetV_cons_ne _ _ (by decide),
      dictGetV_cons_ne _ _ (by decide), dictGetV_cons_ne _ _ (by decide),
      dictGetV_cons_self, if_neg hne]
  · refine ⟨pyMax ((pathSegments r g path).map Segment.safety_prob),
      pyMax_mem hne, ?_, fun x hx => pyMax_ge hx⟩
    rw [details_long r g path (by omega), dictGetV_cons_ne _ _ (by decide),
      dictGetV_cons_ne _ _ (by decide), dictGetV_cons_ne _ _ (by decide),
      dictGetV_cons_ne _ _ (by decide), dictGetV_cons_self, if_neg hne]
  · rw [details_long r g path (by omega), dictGetV_cons_ne _ _ (by decide),
      dictGetV_cons_ne _ _ (by decide), dictGetV_cons_ne _ _ (by decide),
      dictGetV_cons_ne _ _ (by decide), dictGetV_cons_ne _ _ (by decide),
      dictGetV_cons_self, if_neg hne, npStdSq_eq_specPopVariance hne]

/-- Witness for C5: the path A-B-C in the square scenario built under
"distance". -/
theorem claim_C5_witness :
    2 ≤ (["0,0", "0,10", "10,10"] : List String).length ∧
    (∀ ab ∈ (["0,0", "0,10", "10,10"] : List String).zip
        (["0,0", "0,10", "10,10"] : List String).tail,
      hasEdge (create_enhanced_graph sqRouter "distance" 2) ab.1 ab.2) ∧
    (∃ probs : List ℚ,
      probs = ((["0,0", "0,10", "10,10"] : List String).zip
          (["0,0", "0,10", "10,10"] : List String).tail).filterMap
        (fun ab => (findEdge (create_enhanced_graph sqRouter "distance" 2)
          ab.1 ab.2).map EdgeData.safety_prob) ∧
      probs.length = (["0,0", "0,10", "10,10"] : List String).length - 1 ∧
      dictGetV (_get_path_details sqRouter
          (create_enhanced_graph sqRouter "distance" 2)
          ["0,0", "0,10", "10,10"]) "total_distance" =
        some (.num (.fin ((((["0,0", "0,10", "10,10"] : List String).zip
            (["0,0", "0,10", "10,10"] : List String).tail).filterMap
          (fun ab => (findEdge (create_enhanced_graph sqRouter "distance" 2)
            ab.1 ab.2).map EdgeData.distance)).sum))) ∧
      dictGetV (_get_path_details sqRouter
          (create_enhanced_graph sqRouter "distance" 2)
          ["0,0", "0,10", "10,10"]) "avg_safety" =
        some (.num (.fin (probs.sum / probs.length))) ∧
      (∃ m ∈ probs, dictGetV (_get_path_details sqRouter
          (create_enhanced_graph sqRouter "distance" 2)
          ["0,0", "0,10", "10,10"]) "min_safety" =
        some (.num (.fin m)) ∧ ∀ x ∈ probs, m ≤ x) ∧
      (∃ M ∈ probs, dictGetV (_get_path_details sqRouter
          (create_enhanced_graph sqRouter "distance" 2)
          ["0,0", "0,10", "10,10"]) "max_safety" =
        some (.num (.fin M)) ∧ ∀ x ∈ probs, x ≤ M) ∧
      dictGetV (_get_path_details sqRouter
          (create_enhanced_graph sqRouter "distance" 2)
          ["0,0", "0,10", "10,10"]) "safety_std" =
        some (.sqrt (specPopVariance probs))) :=
  ⟨of_decide_eq_true (by with_unfolding_all rfl),
   of_decide_eq_true (by with_unfolding_all rfl),
   claim_C5 sqRouter (create_enhanced_graph sqRouter "distance" 2)
     ["0,0", "0,10", "10,10"]
     (of_decide_eq_true (by with_unfolding_all rfl))
     (of_decide_eq_true (by with_unfolding_all rfl))⟩

/-- C6 (amended): a path with fewer than two nodes yields the three-key
early-return dictionary with empty segments, zero total distance and zero
avg_safety; the keys `min_safety`, `max_safety` and `safety_std` are
absent, so a caller reading one of them fails with a `KeyError` (see the
counterexample: `find_optimal_route` on a start == end route errors). -/
theorem claim_C6 (r : Router) (g : Graph) (path : List String)
    (hshort : path.length < 2) :
    _get_path_details r g path =
      [("segments", .segs []),
       ("total_distance", .num (.fin 0)),
       ("avg_safety", .num (.fin 0))] ∧
    dictGetV (_get_path_details r g path) "min_safety" = none ∧
    dictGetV (_get_path_details r g path) "max_safety" = none ∧
    dictGetV (_get_path_details r g path) "safety_std" = none := by
  unfold _get_path_details
  rw [if_pos hshort]
  exact ⟨rfl, rfl, rfl, rfl⟩

/-- Counterexample to C6 as stated: on the single-node path `["0,0"]` the
detail has no `min_safety` key at all (so "zero for every safety
aggregate" is false), and a caller that reads the aggregate fields —
`find_optimal_route` on a start == end request — raises a `KeyError`
instead of never failing. -/
theorem claim_C6_counterexample :
    dictGetV (_get_path_details sqRouter
        (create_enhanced_graph sqRouter "combined" 2) ["0,0"])
      "min_safety" = none ∧
    find_optimal_route sqRouter "0,0" "0,0" "combined" =
      .error "KeyError" := by
  constructor
  · with_unfolding_all rfl
  · with_unfolding_all rfl

/-- Witness for C6 (amended), at the single-node path. -/
theorem claim_C6_witness :
    (["0,0"] : List String).length < 2 ∧
    (_get_path_details sqRouter (create_enhanced_graph sqRouter "combined" 2)
        ["0,0"] =
      [("segments", .segs []),
       ("total_distance", .num (.fin 0)),
       ("avg_safety", .num (.fin 0))] ∧
    dictGetV (_get_path_details sqRouter
        (create_enhanced_graph sqRouter "combined" 2) ["0,0"])
      "min_safety" = none ∧
    dictGetV (_get_path_details sqRouter
        (create_enhanced_graph sqRouter "combined" 2) ["0,0"])
      "max_safety" = none ∧
    dictGetV (_get_path_details sqRouter
        (create_enhanced_graph sqRouter "combined" 2) ["0,0"])
      "safety_std" = none) :=
  ⟨by decide,
   claim_C6 sqRouter (create_enhanced_graph sqRouter "combined" 2) ["0,0"]
     (by decide)⟩

/-! ## C7 and C8: insufficient graphs and malformed keys -/

/-- On the empty graph, `dijkstra_shortest_path` always raises while
snapping the start point: a `ValueError` if it does not parse, otherwise
the `IndexError` of `find_closest_nodes(start, 1)[0]` on the empty
candidate list. -/
theorem dijkstra_on_empty (r : Router) (s t : String) :
    ∃ e, dijkstra_shortest_path r [] s t = .error e := by
  cases hp : parseCoords s with
  | none =>
    exact ⟨"ValueError: could not convert string to float",
      by simp [dijkstra_shortest_path, snapNode, find_closest_nodes,
        nodesOf, hp]⟩
  | some tc =>
    exact ⟨"IndexError: list index out of range",
      by simp [dijkstra_shortest_path, snapNode, find_closest_nodes,
        nodesOf, nodeDists, sortPairs, hp]⟩

/-- A router whose only component is below the size threshold. -/
def tinyRouter : Router :=
  { graph_data := [⟨"1", "0,0", "5,5", 1⟩]
    safety_weights := []
    connected_components := [["0,0"]]
    segment_id_map := [] }

/-- C7 (amended): whenever no connected component meets the minimum-size
threshold (in particular whenever the raw graph has fewer than 2 nodes),
`create_enhanced_graph` returns the empty graph and `find_optimal_route`
then raises (a `ValueError` or `IndexError` inside the nearest-node
lookup) instead of returning a structured `success = false` result. -/
theorem claim_C7 (r : Router) (start tgt cf : String)
    (hsel : selectedComponent r.connected_components 2 = none) :
    create_enhanced_graph r cf 2 = [] ∧
    ∃ e, find_optimal_route r start tgt cf = .error e := by
  have hg : create_enhanced_graph r cf 2 = [] := by
    unfold create_enhanced_graph
    rw [hsel]
  obtain ⟨e, he⟩ := dijkstra_on_empty r start tgt
  refine ⟨hg, e, ?_⟩
  unfold find_optimal_route
  rw [hg, he]
  rfl

/-- Counterexample to C7 as stated: on a router whose only component has a
single node, `find_optimal_route` raises an `IndexError` (modelled as
`.error`) instead of returning a result with `success = false`. -/
theorem claim_C7_counterexample :
    find_optimal_route tinyRouter "0,0" "1,1" "combined" =
      .error "IndexError: list index out of range" := by
  with_unfolding_all rfl

/-- Witness for C7 (amended). -/
theorem claim_C7_witness :
    selectedComponent tinyRouter.connected_components 2 = none ∧
    (create_enhanced_graph tinyRouter "combined" 2 = [] ∧
     ∃ e, find_optimal_route tinyRouter "0,0" "1,1" "combined" = .error e) :=
  ⟨by decide,
   claim_C7 tinyRouter "0,0" "1,1" "combined" (by decide)⟩

theorem nodesOf_fold_mono {r : Router} {cf : String} {largest : List String}
    {x : String} :
    ∀ (rows : List EdgeRow) (g₀ : Graph), x ∈ nodesOf g₀ →
      x ∈ nodesOf (rows.foldl (builderStep r cf largest) g₀) := by
  intro rows
  induction rows with
  | nil => intro g₀ h; exact h
  | cons row rest ih =>
    intro g₀ h
    rw [List.foldl_cons]
    refine ih _ ?_
    unfold builderStep
    split
    · exact mem_nodesOf_addEdge.mpr (Or.inr (Or.inr h))
    · exact h

theorem fold_adds_nodes {r : Router} {cf : String} {largest : List String}
    (row : EdgeRow) :
    ∀ (rows : List EdgeRow) (g₀ : Graph), row ∈ rows →
      row.from_node ∈ largest → row.to_node ∈ largest →
      row.from_node ∈ nodesOf (rows.foldl (builderStep r cf largest) g₀) ∧
      row.to_node ∈ nodesOf (rows.foldl (builderStep r cf largest) g₀) := by
  intro rows
  induction rows with
  | nil => intro g₀ h; simp at h
  | cons row0 rest ih =>
    intro g₀ hmem hf ht
    rw [List.foldl_cons]
    rcases List.mem_cons.mp hmem with rfl | hm
    · refine ⟨nodesOf_fold_mono rest _ ?_, nodesOf_fold_mono rest _ ?_⟩
      · unfold builderStep
        rw [if_pos ⟨hf, ht⟩]
        exact mem_nodesOf_addEdge.mpr (Or.inl rfl)
      · unfold builderStep
        rw [if_pos ⟨hf, ht⟩]
        exact mem_nodesOf_addEdge.mpr (Or.inr (Or.inl rfl))
    · exact ih _ hm hf ht

theorem nodeDists_error (tx ty : ℚ) :
    ∀ l : List String, (∃ n ∈ l, parseCoords n = none) →
      ∃ m, nodeDists tx ty l = .error m := by
  intro l
  induction l with
  | nil => rintro ⟨n, hn, _⟩; simp at hn
  | cons n0 rest ih =>
    rintro ⟨n, hn, hpn⟩
    rw [nodeDists]
    cases hp0 : parseCoords n0 with
    | none => exact ⟨"ValueError: could not convert string to float", rfl⟩
    | some nc =>
      have hnr : n ∈ rest := by
        rcases List.mem_cons.mp hn with rfl | h
        · exact absurd hp0 (hpn ▸ fun h => by cases h)
        · exact h
      obtain ⟨m, hm⟩ := ih ⟨n, hnr, hpn⟩
      rw [hm]
      exact ⟨m, rfl⟩

/-- C8 (amended): a node key that cannot be parsed into two numeric
components is NOT rejected at the Graph Builder boundary:
`create_enhanced_graph` accepts it and builds a graph containing it, and
the parse fault surfaces later inside `find_closest_nodes`' node scan
(Python's `ValueError`), whenever an off-graph query point is snapped
against that graph. -/
theorem claim_C8 (r : Router) (cf : String) (largest : List String)
    (row : EdgeRow) (q : String) (k : ℕ)
    (hsel : selectedComponent r.connected_components 2 = some largest)
    (hrow : row ∈ r.graph_data)
    (hfrom : row.from_node ∈ largest) (hto : row.to_node ∈ largest)
    (hbadkey : parseCoords row.from_node = none)
    (hq : parseCoords q ≠ none) :
    row.from_node ∈ nodesOf (create_enhanced_graph r cf 2) ∧
    ∃ msg, find_closest_nodes (create_enhanced_graph r cf 2) q k =
      .error msg := by
  have hg : create_enhanced_graph r cf 2 =
      r.graph_data.foldl (builderStep r cf largest) [] := by
    unfold create_enhanced_graph
    rw [hsel]
  have hmemn : row.from_node ∈ nodesOf (create_enhanced_graph r cf 2) := by
    rw [hg]
    exact (fold_adds_nodes row r.graph_data [] hrow hfrom hto).1
  refine ⟨hmemn, ?_⟩
  cases hpq : parseCoords q with
  | none => exact absurd hpq hq
  | some tc =>
    obtain ⟨m, hm⟩ :=
      nodeDists_error tc.1 tc.2
        (nodesOf (create_enhanced_graph r cf 2))
        ⟨row.from_node, hmemn, hbadkey⟩
    exact ⟨m, by simp [find_closest_nodes, hpq, hm]⟩

/-- A router with a malformed coordinate key in its selected component. -/
def badRouter : Router :=
  { graph_data := [⟨"1", "foo", "0,1", 5⟩]
    safety_weights := []
    connected_components := [["foo", "0,1"]]
    segment_id_map := [] }

/-- Counterexample to C8 as stated: the malformed key "foo" passes graph
construction (the built graph contains it), and the parse fault then
surfaces inside the nearest-node scan. -/
theorem claim_C8_counterexample :
    "foo" ∈ nodesOf (create_enhanced_graph badRouter "distance" 2) ∧
    parseCoords "foo" = none ∧
    find_closest_nodes (create_enhanced_graph badRouter "distance" 2)
      "5,5" 1 = .error "ValueError: could not convert string to float" := by
  refine ⟨of_decide_eq_true (by with_unfolding_all rfl), ?_, ?_⟩ <;>
    with_unfolding_all rfl

/-- Witness for C8 (amended). -/
theorem claim_C8_witness :
    parseCoords "foo" = none ∧
    ("foo" ∈ nodesOf (create_enhanced_graph badRouter "distance" 2) ∧
     ∃ msg, find_closest_nodes (create_enhanced_graph badRouter "distance" 2)
       "5,5" 1 = .error msg) :=
  ⟨of_decide_eq_true (by with_unfolding_all rfl),
   claim_C8 badRouter "distance" ["foo", "0,1"] ⟨"1", "foo", "0,1", 5⟩
     "5,5" 1
     (of_decide_eq_true (by with_unfolding_all rfl))
     (of_decide_eq_true (by with_unfolding_all rfl))
     (of_decide_eq_true (by with_unfolding_all rfl))
     (of_decide_eq_true (by with_unfolding_all rfl))
     (of_decide_eq_true (by with_unfolding_all rfl))
     (of_decide_eq_true (by with_unfolding_all rfl))⟩

/-! ## Paths and path weights -/

/-- `p` is a path from `s` to `t` in `g`: nonempty, with the right
endpoints, every consecutive pair an edge. -/
def IsPath (g : Graph) (s t : String) (p : List String) : Prop :=
  p ≠ [] ∧ p.head? = some s ∧ p.getLast? = some t ∧ List.Chain' (hasEdge g) p

instance (g : Graph) (s t : String) (p : List String) :
    Decidable (IsPath g s t p) :=
  inferInstanceAs (Decidable (p ≠ [] ∧ p.head? = some s ∧
    p.getLast? = some t ∧ List.Chain' (hasEdge g) p))

/-- The sum of the `weight` attributes along consecutive pairs of a node
list (0 for a missing edge; meaningful under `IsPath`). -/
def pathWeight (g : Graph) : List String → ℚ
  | a :: b :: rest =>
    (match findEdge g a b with
     | some e => e.weight
     | none => 0) + pathWeight g (b :: rest)
  | _ => 0

/-- Adding a rational step cost to a tentative cost. -/
def Cost.addQ : Cost → ℚ → Cost
  | .fin a, w => .fin (a + w)
  | .inf, _ => .inf

theorem cost_le_fin {x : Cost} {b : ℚ} (h : Cost.le x (.fin b)) :
    ∃ a, x = .fin a ∧ a ≤ b := by
  cases x with
  | fin a => exact ⟨a, rfl, h⟩
  | inf => exact absurd h (by simp [Cost.le])

theorem cost_le_refl (x : Cost) : Cost.le x x := by
  cases x <;> simp [Cost.le]

theorem cost_le_trans {x y z : Cost} (h1 : Cost.le x y) (h2 : Cost.le y z) :
    Cost.le x z := by
  cases x <;> cases y <;> cases z <;> simp [Cost.le] at * <;> linarith

theorem findEdge_mem {g : Graph} {u v : String} {d : EdgeData}
    (h : findEdge g u v = some d) : ∃ e ∈ g, e.2.2 = d := by
  induction g with
  | nil => simp [findEdge] at h
  | cons e0 rest ih =>
    rw [findEdge] at h
    split at h
    · cases h
      exact ⟨e0, List.mem_cons_self _ _, rfl⟩
    · obtain ⟨e, he, hd⟩ := ih h
      exact ⟨e, List.mem_cons_of_mem _ he, hd⟩

theorem samePair_swap {u v a b : String} (h : samePair u v a b) :
    samePair v u a b := by
  unfold samePair at *
  tauto

theorem findEdge_symm (g : Graph) (u v : String) :
    findEdge g u v = findEdge g v u := by
  induction g with
  | nil => rfl
  | cons e0 rest ih =>
    rw [findEdge, findEdge]
    by_cases h : samePair u v e0.1 e0.2.1
    · rw [if_pos h, if_pos (samePair_swap h)]
    · rw [if_neg h, if_neg (fun hvu => h (samePair_swap hvu)), ih]

theorem findEdge_weight_nonneg {g : Graph} {u v : String} {d : EdgeData}
    (HW : ∀ e ∈ g, 0 ≤ e.2.2.weight) (h : findEdge g u v = some d) :
    0 ≤ d.weight := by
  obtain ⟨e, he, hd⟩ := findEdge_mem h
  exact hd ▸ HW e he

theorem findEdge_mem_nodes {g : Graph} {u v : String} {d : EdgeData}
    (h : findEdge g u v = some d) :
    u ∈ nodesOf g ∧ v ∈ nodesOf g := by
  induction g with
  | nil => simp [findEdge] at h
  | cons e0 rest ih =>
    rw [findEdge] at h
    split at h
    · rename_i hsp
      rcases hsp with ⟨rfl, rfl⟩ | ⟨rfl, rfl⟩
      · exact ⟨mem_nodesOf.mpr ⟨e0, List.mem_cons_self _ _, Or.inl rfl⟩,
          mem_nodesOf.mpr ⟨e0, List.mem_cons_self _ _, Or.inr rfl⟩⟩
      · exact ⟨mem_nodesOf.mpr ⟨e0, List.mem_cons_self _ _, Or.inr rfl⟩,
          mem_nodesOf.mpr ⟨e0, List.mem_cons_self _ _, Or.inl rfl⟩⟩
    · obtain ⟨h1, h2⟩ := ih h
      constructor
      · rw [mem_nodesOf] at h1 ⊢
        obtain ⟨e, he, hx⟩ := h1
        exact ⟨e, List.mem_cons_of_mem _ he, hx⟩
      · rw [mem_nodesOf] at h2 ⊢
        obtain ⟨e, he, hx⟩ := h2
        exact ⟨e, List.mem_cons_of_mem _ he, hx⟩

theorem pathWeight_nonneg {g : Graph} (HW : ∀ e ∈ g, 0 ≤ e.2.2.weight) :
    ∀ p : List String, List.Chain' (hasEdge g) p → 0 ≤ pathWeight g p := by
  intro p
  induction p with
  | nil => intro _; exact le_refl 0
  | cons a t ih =>
    intro hc
    cases t with
    | nil => exact le_refl 0
    | cons b rest =>
      obtain ⟨hab, hrest⟩ := List.chain'_cons.mp hc
      have h1 : 0 ≤ pathWeight g (b :: rest) := ih hrest
      unfold hasEdge at hab
      cases hfe : findEdge g a b with
      | none => exact absurd hfe hab
      | some e =>
        show (match findEdge g a b with
              | some e => e.weight
              | none => 0) + pathWeight g (b :: rest) ≥ 0
        rw [hfe]
        have := findEdge_weight_nonneg HW hfe
        linarith

theorem isPath_single (g : Graph) (s : String) : IsPath g s s [s] := by
  refine ⟨by simp, rfl, rfl, ?_⟩
  simp

theorem pathWeight_single (g : Graph) (s : String) : pathWeight g [s] = 0 := rfl

theorem pathWeight_append_single {g : Graph} :
    ∀ (p : List String) (v y : String), p.getLast? = some v →
      pathWeight g (p ++ [y]) =
        pathWeight g p +
          (match findEdge g v y with
           | some e => e.weight
           | none => 0) := by
  intro p
  induction p with
  | nil => intro v y h; simp at h
  | cons a t ih =>
    intro v y h
    cases t with
    | nil =>
      have ha : a = v := by simpa using h
      subst ha
      show (match findEdge g a y with | some e => e.weight | none => 0) +
          pathWeight g [y] = pathWeight g [a] +
            (match findEdge g a y with | some e => e.weight | none => 0)
      have h1 : pathWeight g [y] = 0 := rfl
      have h2 : pathWeight g [a] = 0 := rfl
      rw [h1, h2]
      ring
    | cons b rest =>
      have hlast : (b :: rest).getLast? = some v := by
        rwa [List.getLast?_cons_cons] at h
      show (match findEdge g a b with | some e => e.weight | none => 0) +
          pathWeight g ((b :: rest) ++ [y]) = _
      rw [ih v y hlast]
      show _ = (match findEdge g a b with | some e => e.weight | none => 0) +
          pathWeight g (b :: rest) + _
      ring

theorem isPath_append_single {g : Graph} {s v y : String} {p : List String}
    (hp : IsPath g s v p) {e : EdgeData} (he : findEdge g v y = some e) :
    IsPath g s y (p ++ [y]) ∧
      pathWeight g (p ++ [y]) = pathWeight g p + e.weight := by
  obtain ⟨hne, hhead, hlast, hchain⟩ := hp
  constructor
  · refine ⟨by simp, ?_, ?_, ?_⟩
    · rwa [List.head?_append_of_ne_nil]
      exact hne
    · simp
    · rw [List.chain'_append]
      refine ⟨hchain, List.chain'_singleton _, ?_⟩
      intro x hx y2 hy2
      rw [hlast] at hx
      cases hx
      simp at hy2
      subst hy2
      unfold hasEdge
      rw [he]
      simp
  · rw [pathWeight_append_single p v y hlast, he]

/-! ## Neighbors and the priority queue -/

theorem neighbors_cons (e0 : String × String × EdgeData) (rest : Graph)
    (u : String) :
    neighbors (e0 :: rest) u =
      if e0.1 = u then e0.2.1 :: neighbors rest u
      else if e0.2.1 = u then e0.1 :: neighbors rest u
      else neighbors rest u := rfl

theorem findEdge_imp_neighbor {g : Graph} {u y : String} {e : EdgeData}
    (h : findEdge g u y = some e) : y ∈ neighbors g u := by
  induction g with
  | nil => simp [findEdge] at h
  | cons e0 rest ih =>
    rw [findEdge] at h
    rw [neighbors_cons]
    split at h
    · rename_i hsp
      rcases hsp with ⟨rfl, rfl⟩ | ⟨h1, h2⟩
      · rw [if_pos rfl]
        exact List.mem_cons_self _ _
      · by_cases h3 : e0.1 = u
        · rw [if_pos h3]
          have hy : y = e0.2.1 := h2.trans (h3.trans h1)
          rw [hy]
          exact List.mem_cons_self _ _
        · rw [if_neg h3, if_pos h1.symm, h2]
          exact List.mem_cons_self _ _
    · split
      · exact List.mem_cons_of_mem _ (ih h)
      · split
        · exact List.mem_cons_of_mem _ (ih h)
        · exact ih h

theorem neighbor_mem_nodes {g : Graph} {u y : String}
    (h : y ∈ neighbors g u) : u ∈ nodesOf g ∧ y ∈ nodesOf g := by
  induction g with
  | nil => simp [neighbors] at h
  | cons e0 rest ih =>
    rw [neighbors_cons] at h
    have push : ∀ x, x ∈ nodesOf rest → x ∈ nodesOf (e0 :: rest) := by
      intro x hx
      rw [mem_nodesOf] at hx ⊢
      obtain ⟨e, he, hh⟩ := hx
      exact ⟨e, List.mem_cons_of_mem _ he, hh⟩
    split at h
    · rename_i h1
      rcases List.mem_cons.mp h with rfl | hm
      · exact ⟨mem_nodesOf.mpr ⟨e0, List.mem_cons_self _ _, Or.inl h1.symm⟩,
          mem_nodesOf.mpr ⟨e0, List.mem_cons_self _ _, Or.inr rfl⟩⟩
      · obtain ⟨hu, hy⟩ := ih hm
        exact ⟨push u hu, push y hy⟩
    · split at h
      · rename_i h2
        rcases List.mem_cons.mp h with rfl | hm
        · exact ⟨mem_nodesOf.mpr ⟨e0, List.mem_cons_self _ _, Or.inr h2.symm⟩,
            mem_nodesOf.mpr ⟨e0, List.mem_cons_self _ _, Or.inl rfl⟩⟩
        · obtain ⟨hu, hy⟩ := ih hm
          exact ⟨push u hu, push y hy⟩
      · obtain ⟨hu, hy⟩ := ih h
        exact ⟨push u hu, push y hy⟩

theorem neighbors_nil_of_not_node {g : Graph} {u : String}
    (h : u ∉ nodesOf g) : neighbors g u = [] := by
  cases hn : neighbors g u with
  | nil => rfl
  | cons y ys =>
    have : y ∈ neighbors g u := by
      rw [hn]
      exact List.mem_cons_self _ _
    exact absurd (neighbor_mem_nodes this).1 h

theorem neighbors_length_le (g : Graph) (u : String) :
    (neighbors g u).length ≤ g.length := by
  induction g with
  | nil => exact le_refl 0
  | cons e0 rest ih =>
    rw [neighbors_cons]
    split
    · simpa using Nat.succ_le_succ ih
    · split
      · simpa using Nat.succ_le_succ ih
      · exact le_trans ih (Nat.le_succ _)

theorem minEntry_mem : ∀ (l : List (ℚ × String)) (e : ℚ × String),
    minEntry e l ∈ e :: l := by
  intro l
  induction l with
  | nil => intro e; exact List.mem_cons_self _ _
  | cons a t ih =>
    intro e
    show minEntry (if entryLt a e then a else e) t ∈ e :: a :: t
    rcases List.mem_cons.mp (ih (if entryLt a e then a else e)) with h | h
    · rw [h]
      split
      · exact List.mem_cons_of_mem _ (List.mem_cons_self _ _)
      · exact List.mem_cons_self _ _
    · exact List.mem_cons_of_mem _ (List.mem_cons_of_mem _ h)

theorem minEntry_le : ∀ (l : List (ℚ × String)) (e : ℚ × String),
    ∀ x ∈ e :: l, (minEntry e l).1 ≤ x.1 := by
  intro l
  induction l with
  | nil =>
    intro e x hx
    rcases List.mem_cons.mp hx with rfl | h
    · exact le_refl _
    · simp at h
  | cons a t ih =>
    intro e x hx
    show (minEntry (if entryLt a e then a else e) t).1 ≤ x.1
    have hme : (minEntry (if entryLt a e then a else e) t).1 ≤
        (if entryLt a e then a else e).1 :=
      ih _ _ (List.mem_cons_self _ _)
    have hif_e : (if entryLt a e then a else e).1 ≤ e.1 := by
      split
      · rename_i hlt
        rcases hlt with h | ⟨h, _⟩
        · exact le_of_lt h
        · exact le_of_eq h
      · exact le_refl _
    have hif_a : (if entryLt a e then a else e).1 ≤ a.1 := by
      split
      · exact le_refl _
      · rename_i hnlt
        unfold entryLt at hnlt
        push_neg at hnlt
        exact hnlt.1
    rcases List.mem_cons.mp hx with rfl | hm
    · exact le_trans hme hif_e
    · rcases List.mem_cons.mp hm with rfl | hm2
      · exact le_trans hme hif_a
      · exact ih _ _ (List.mem_cons_of_mem _ hm2)

theorem popMin_none {pq : List (ℚ × String)} :
    popMin pq = none ↔ pq = [] := by
  cases pq <;> simp [popMin]

theorem popMin_spec {pq : List (ℚ × String)} {m : ℚ × String}
    {rest : List (ℚ × String)} (h : popMin pq = some (m, rest)) :
    m ∈ pq ∧ rest = pq.erase m ∧ (∀ x ∈ pq, m.1 ≤ x.1) ∧
      rest.length + 1 = pq.length := by
  cases pq with
  | nil => simp [popMin] at h
  | cons e l =>
    rw [popMin] at h
    cases h
    refine ⟨minEntry_mem l e, rfl, minEntry_le l e, ?_⟩
    rw [List.length_erase_of_mem (minEntry_mem l e)]
    simp

/-! ## The loop invariant -/

/-- The chain of `previous` links from a node down to a root
(a node whose predecessor is `None`). -/
inductive PrevChain (prev : String → Option String) : String → List String → Prop
  | base {v : String} : prev v = none → PrevChain prev v [v]
  | step {v u : String} {p : List String} :
      prev v = some u → PrevChain prev u p → PrevChain prev v (v :: p)

theorem prevChain_ne_nil {prev : String → Option String} {v : String}
    {p : List String} (h : PrevChain prev v p) : p ≠ [] := by
  cases h <;> simp

theorem prevChain_walkPrev {prev : String → Option String} {v : String}
    {p : List String} (h : PrevChain prev v p) :
    ∀ n, p.length ≤ n → walkPrev prev n v = p := by
  induction h with
  | base hv =>
    rename_i v0
    intro n hn
    match n with
    | m + 1 =>
      rw [walkPrev, hv]
  | step hv hc ih =>
    rename_i v0 u0 p0
    intro n hn
    match n with
    | m + 1 =>
      rw [walkPrev, hv]
      show v0 :: walkPrev prev m u0 = v0 :: p0
      have hlen : p0.length ≤ m := by
        simp at hn
        omega
      rw [ih m hlen]

theorem prevChain_congr {prev prev2 : String → Option String} {v : String}
    {p : List String} (h : PrevChain prev v p)
    (heq : ∀ x ∈ p, prev2 x = prev x) : PrevChain prev2 v p := by
  induction h with
  | base hv =>
    exact PrevChain.base ((heq _ (List.mem_cons_self _ _)).trans hv)
  | step hv hc ih =>
    refine PrevChain.step ((heq _ (List.mem_cons_self _ _)).trans hv) (ih ?_)
    intro x hx
    exact heq x (List.mem_cons_of_mem _ hx)

/-- All facts the loop maintains for any edge weights. -/
structure DInv (g : Graph) (start : String) (st : DState) : Prop where
  nodup : st.visited.Nodup
  vsub : ∀ v ∈ st.visited, v = start ∨ v ∈ nodesOf g
  qsub : ∀ en ∈ st.pq, en.2 = start ∨ en.2 ∈ nodesOf g
  dstart : st.d start = .fin 0
  startmem : start ∈ st.visited ∨
    (st.visited = [] ∧ st.pq = [(0, start)] ∧ st.d = initD start ∧
     st.prev = fun _ => none)
  dfin : ∀ v ∈ st.visited, st.d v ≠ .inf
  reachD : ∀ v q, st.d v = .fin q →
    ∃ p, IsPath g start v p ∧ pathWeight g p = q
  reachQ : ∀ en ∈ st.pq, ∃ p, IsPath g start en.2 p ∧ pathWeight g p = en.1
  tentLe : ∀ en ∈ st.pq, Cost.le (st.d en.2) (.fin en.1)
  rep : ∀ v, v ∉ st.visited → ∀ q, st.d v = .fin q → (q, v) ∈ st.pq
  prevInv : ∀ v u, st.prev v = some u → u ∈ st.visited ∧
    ∃ e, findEdge g u v = some e ∧ ∃ qu qv, st.d u = .fin qu ∧
      st.d v = .fin qv ∧ qv = qu + e.weight
  prevStart : ∀ v, st.prev v = none → ∀ q, st.d v = .fin q → v = start
  chains : ∀ v ∈ st.visited, ∃ p, PrevChain st.prev v p ∧
    p.length ≤ st.visited.length ∧ ∀ x ∈ p, x ∈ st.visited

/-- The extra facts that need nonnegative weights. -/
structure WInv (g : Graph) (start : String) (st : DState) : Prop where
  settledOpt : ∀ v ∈ st.visited, ∀ q, st.d v = .fin q →
    ∀ p, IsPath g start v p → q ≤ pathWeight g p
  relaxed : ∀ u ∈ st.visited, ∀ y e, findEdge g u y = some e →
    Cost.le (st.d y) (Cost.addQ (st.d u) e.weight)
  mono : ∀ u ∈ st.visited, ∀ en ∈ st.pq, Cost.le (st.d u) (.fin en.1)

theorem DInv_init (g : Graph) (start : String) :
    DInv g start (initState start) := by
  have hd : ∀ v q, initD start v = .fin q → v = start ∧ q = 0 := by
    intro v q h
    unfold initD at h
    split at h
    · cases h
      rename_i hv
      exact ⟨hv, rfl⟩
    · cases h
  constructor
  · exact List.nodup_nil
  · intro v hv; simp [initState] at hv
  · intro en hen
    simp [initState] at hen
    rw [hen]
    exact Or.inl rfl
  · simp [initState, initD]
  · exact Or.inr ⟨rfl, rfl, rfl, rfl⟩
  · intro v hv; simp [initState] at hv
  · intro v q h
    obtain ⟨rfl, rfl⟩ := hd v q h
    exact ⟨[v], isPath_single g v, pathWeight_single g v⟩
  · intro en hen
    simp [initState] at hen
    rw [hen]
    exact ⟨[start], isPath_single g start, pathWeight_single g start⟩
  · intro en hen
    simp [initState] at hen
    rw [hen]
    show Cost.le (initD start start) (.fin 0)
    simp [initD, Cost.le]
  · intro v _ q h
    obtain ⟨rfl, rfl⟩ := hd v q h
    simp [initState]
  · intro v u h
    simp [initState] at h
  · intro v h q hq
    exact (hd v q hq).1
  · intro v hv
    simp [initState] at hv

theorem WInv_init (g : Graph) (start : String) :
    WInv g start (initState start) := by
  constructor
  · intro v hv; simp [initState] at hv
  · intro u hu; simp [initState] at hu
  · intro u hu; simp [initState] at hu

theorem visited_length_le {g : Graph} {start : String} {st : DState}
    (inv : DInv g start st) :
    st.visited.length ≤ (nodesOf g).length + 1 := by
  have hsub : st.visited ⊆ start :: nodesOf g := by
    intro x hx
    rcases inv.vsub x hx with rfl | h
    · exact List.mem_cons_self _ _
    · exact List.mem_cons_of_mem _ h
  calc st.visited.length = st.visited.toFinset.card :=
        (List.toFinset_card_of_nodup inv.nodup).symm
    _ ≤ (start :: nodesOf g).toFinset.card := by
        apply Finset.card_le_card
        intro x hx
        rw [List.mem_toFinset] at hx ⊢
        exact hsub hx
    _ ≤ (start :: nodesOf g).length := List.toFinset_card_le _
    _ = (nodesOf g).length + 1 := by simp

/-- From the invariant: every node with a finite distance has a prev-chain
whose reversal is a start-to-node path realizing that distance. -/
theorem chain_path {g : Graph} {start : String} {st : DState}
    (inv : DInv g start st) :
    ∀ {p : List String} {v : String}, PrevChain st.prev v p →
      ∀ q, st.d v = .fin q →
        IsPath g start v p.reverse ∧ pathWeight g p.reverse = q := by
  intro p v h
  induction h with
  | base hv =>
    intro q hq
    have hvs : _ = start := inv.prevStart _ hv q hq
    subst hvs
    rename_i v
    have : q = 0 := by
      rw [inv.dstart] at hq
      cases hq
      rfl
    subst this
    exact ⟨isPath_single g v, pathWeight_single g v⟩
  | step hv hc ih =>
    intro q hq
    rename_i v u p0
    obtain ⟨hu, e, he, qu, qv, hdu, hdv, hqv⟩ := inv.prevInv v u hv
    obtain ⟨hpath, hw⟩ := ih qu hdu
    have hq2 : q = qv := by
      rw [hdv] at hq
      cases hq
      rfl
    subst hq2
    obtain ⟨hp2, hw2⟩ := isPath_append_single hpath he
    rw [List.reverse_cons]
    refine ⟨hp2, ?_⟩
    rw [hw2, hw, hqv]

/-- Every node with a finite distance has a bounded prev-chain. -/
theorem chain_of_fin {g : Graph} {start : String} {st : DState}
    (inv : DInv g start st) (v : String) (q : ℚ) (hq : st.d v = .fin q) :
    ∃ p, PrevChain st.prev v p ∧ p.length ≤ st.visited.length + 1 := by
  cases hp : st.prev v with
  | none => exact ⟨[v], PrevChain.base hp, by simp⟩
  | some u =>
    obtain ⟨hu, _⟩ := inv.prevInv v u hp
    obtain ⟨p, hc, hlen, _⟩ := inv.chains u hu
    exact ⟨v :: p, PrevChain.step hp hc, by simp; omega⟩

theorem cost_le_of_lt {a b : Cost} (h : Cost.lt a b) : Cost.le a b := by
  cases a <;> cases b <;> simp [Cost.lt, Cost.le] at * <;> linarith

theorem cost_le_of_not_lt {a b : Cost} (h : ¬ Cost.lt a b) : Cost.le b a := by
  cases a <;> cases b <;> simp [Cost.lt, Cost.le] at * <;> linarith

theorem cost_le_fin_mono {a b : ℚ} (h : a ≤ b) :
    Cost.le (.fin a) (.fin b) := h

/-- Core of the frontier-cover argument: walking any path from a settled
node `v` to an unsettled node `t`, some queue entry costs at most
`d v + weight(path)` (needs nonnegative weights). -/
theorem cover_core {g : Graph} {start : String} {st : DState}
    (inv : DInv g start st) (winv : WInv g start st)
    (HW : ∀ e ∈ g, 0 ≤ e.2.2.weight) :
    ∀ (p : List String) (v : String) (dv : ℚ) (t : String),
      v ∈ st.visited → st.d v = .fin dv → IsPath g v t p →
      t ∉ st.visited →
      ∃ en ∈ st.pq, en.1 ≤ dv + pathWeight g p := by
  intro p
  induction p with
  | nil =>
    intro v dv t _ _ hp _
    exact absurd rfl hp.1
  | cons a tail ih =>
    intro v dv t hv hdv hp ht
    obtain ⟨hne, hhead, hlast, hchain⟩ := hp
    have hav : a = v := by simpa using hhead
    subst hav
    cases tail with
    | nil =>
      have hat : a = t := by simpa using hlast
      exact absurd (hat ▸ hv) ht
    | cons b rest =>
      have hedge : hasEdge g a b := (List.chain'_cons.mp hchain).1
      obtain ⟨e, he⟩ : ∃ e, findEdge g a b = some e := by
        unfold hasEdge at hedge
        cases hfe : findEdge g a b with
        | none => exact absurd hfe hedge
        | some e => exact ⟨e, rfl⟩
      have hw0 : 0 ≤ e.weight := findEdge_weight_nonneg HW he
      have hrel := winv.relaxed a hv b e he
      rw [hdv] at hrel
      obtain ⟨qb, hdb, hqb⟩ := cost_le_fin hrel
      have hts : List.Chain' (hasEdge g) (b :: rest) :=
        (List.chain'_cons.mp hchain).2
      have hsuffix : 0 ≤ pathWeight g (b :: rest) :=
        pathWeight_nonneg HW _ hts
      have hweq : pathWeight g (a :: b :: rest) =
          e.weight + pathWeight g (b :: rest) := by
        show (match findEdge g a b with
              | some e => e.weight
              | none => 0) + pathWeight g (b :: rest) = _
        rw [he]
      by_cases hb : b ∈ st.visited
      · have hlast2 : (b :: rest).getLast? = some t := by
          rwa [List.getLast?_cons_cons] at hlast
        have hpb : IsPath g b t (b :: rest) := ⟨by simp, rfl, hlast2, hts⟩
        obtain ⟨en, hen, hle⟩ := ih b qb t hb hdb hpb ht
        refine ⟨en, hen, ?_⟩
        rw [hweq]
        linarith
      · have hmem := inv.rep b hb qb hdb
        refine ⟨(qb, b), hmem, ?_⟩
        show qb ≤ dv + _
        rw [hweq]
        linarith

/-- Any path from `start` to an unsettled node is covered by the queue. -/
theorem cover {g : Graph} {start : String} {st : DState}
    (inv : DInv g start st) (winv : WInv g start st)
    (HW : ∀ e ∈ g, 0 ≤ e.2.2.weight) {t : String} {p : List String}
    (ht : t ∉ st.visited) (hp : IsPath g start t p) :
    ∃ en ∈ st.pq, en.1 ≤ pathWeight g p := by
  rcases inv.startmem with hs | ⟨_, hpq, _, _⟩
  · obtain ⟨en, hen, hle⟩ :=
      cover_core inv winv HW p start 0 t hs inv.dstart hp ht
    exact ⟨en, hen, by linarith⟩
  · refine ⟨(0, start), by rw [hpq]; exact List.mem_cons_self _ _, ?_⟩
    exact pathWeight_nonneg HW p hp.2.2.2

/-- Popping an already-visited node preserves the invariant. -/
theorem DInv_skip {g : Graph} {start : String} {st : DState}
    (inv : DInv g start st) {m : ℚ × String} {rest : List (ℚ × String)}
    (hpop : popMin st.pq = some (m, rest)) (hm : m.2 ∈ st.visited) :
    DInv g start { st with pq := rest } := by
  obtain ⟨hmem, hrest, hmin, hlen⟩ := popMin_spec hpop
  subst hrest
  have hsub : ∀ x, x ∈ st.pq.erase m → x ∈ st.pq :=
    fun x hx => List.mem_of_mem_erase hx
  constructor
  · exact inv.nodup
  · exact inv.vsub
  · exact fun en hen => inv.qsub en (hsub en hen)
  · exact inv.dstart
  · rcases inv.startmem with h | ⟨hv, _⟩
    · exact Or.inl h
    · rw [hv] at hm
      simp at hm
  · exact inv.dfin
  · exact inv.reachD
  · exact fun en hen => inv.reachQ en (hsub en hen)
  · exact fun en hen => inv.tentLe en (hsub en hen)
  · intro v hv q hq
    have h1 := inv.rep v hv q hq
    have hne : (q, v) ≠ m := by
      intro hc
      rw [← hc] at hm
      exact hv hm
    exact (List.mem_erase_of_ne hne).mpr h1
  · exact inv.prevInv
  · exact inv.prevStart
  · exact inv.chains

theorem WInv_skip {g : Graph} {start : String} {st : DState}
    (winv : WInv g start st) {m : ℚ × String} {rest : List (ℚ × String)}
    (hpop : popMin st.pq = some (m, rest)) :
    WInv g start { st with pq := rest } := by
  obtain ⟨hmem, hrest, hmin, hlen⟩ := popMin_spec hpop
  subst hrest
  exact ⟨winv.settledOpt, winv.relaxed,
    fun u hu en hen => winv.mono u hu en (List.mem_of_mem_erase hen)⟩

/-- On the first pop of a node, the popped cost is its final distance. -/
theorem settle_d_eq {g : Graph} {start : String} {st : DState}
    (inv : DInv g start st) {c : ℚ} {u : String} {rest : List (ℚ × String)}
    (hpop : popMin st.pq = some ((c, u), rest)) (hu : u ∉ st.visited) :
    st.d u = .fin c := by
  obtain ⟨hmem, hrest, hmin, hlen⟩ := popMin_spec hpop
  obtain ⟨q, hdq, hqc⟩ := cost_le_fin (inv.tentLe (c, u) hmem)
  have h1 := inv.rep u hu q hdq
  have h2 : c ≤ q := hmin (q, u) h1
  rw [hdq]
  congr 1
  linarith

/-- Marking a freshly popped node visited preserves the invariant. -/
theorem DInv_settle {g : Graph} {start : String} {st : DState}
    (inv : DInv g start st) {c : ℚ} {u : String} {rest : List (ℚ × String)}
    (hpop : popMin st.pq = some ((c, u), rest)) (hu : u ∉ st.visited) :
    DInv g start { st with pq := rest, visited := u :: st.visited } := by
  obtain ⟨hmem, hrest, hmin, hlen⟩ := popMin_spec hpop
  subst hrest
  have hdu : st.d u = .fin c := settle_d_eq inv hpop hu
  have hsub : ∀ x, x ∈ st.pq.erase (c, u) → x ∈ st.pq :=
    fun x hx => List.mem_of_mem_erase hx
  constructor
  · exact List.nodup_cons.mpr ⟨hu, inv.nodup⟩
  · intro v hv
    rcases List.mem_cons.mp hv with rfl | h
    · exact inv.qsub (c, v) hmem
    · exact inv.vsub v h
  · exact fun en hen => inv.qsub en (hsub en hen)
  · exact inv.dstart
  · rcases inv.startmem with h | ⟨hv, hpq, hd, hprev⟩
    · exact Or.inl (List.mem_cons_of_mem _ h)
    · rw [hpq] at hpop
      rw [show popMin [((0 : ℚ), start)] = some (((0 : ℚ), start),
            ([((0 : ℚ), start)]).erase ((0 : ℚ), start)) from rfl,
        List.erase_cons_head] at hpop
      injection hpop with h1
      injection h1 with h2 h3
      injection h2 with h4 h5
      left
      rw [h5]
      exact List.mem_cons_self _ _
  · intro v hv
    rcases List.mem_cons.mp hv with rfl | h
    · rw [hdu]
      simp
    · exact inv.dfin v h
  · exact inv.reachD
  · exact fun en hen => inv.reachQ en (hsub en hen)
  · exact fun en hen => inv.tentLe en (hsub en hen)
  · intro v hv q hq
    have hvnot : v ∉ st.visited := fun h => hv (List.mem_cons_of_mem _ h)
    have hvu : v ≠ u := fun h => hv (h ▸ List.mem_cons_self _ _)
    have h1 := inv.rep v hvnot q hq
    have hne : (q, v) ≠ (c, u) := by
      intro hc
      cases hc
      exact hvu rfl
    exact (List.mem_erase_of_ne hne).mpr h1
  · intro v u' h
    obtain ⟨h1, h2⟩ := inv.prevInv v u' h
    exact ⟨List.mem_cons_of_mem _ h1, h2⟩
  · exact inv.prevStart
  · intro v hv
    rcases List.mem_cons.mp hv with rfl | h
    · cases hp : st.prev v with
      | none =>
        refine ⟨[v], PrevChain.base hp, by simp, ?_⟩
        intro x hx
        simp at hx
        rw [hx]
        exact List.mem_cons_self _ _
      | some x =>
        obtain ⟨hx, _⟩ := inv.prevInv v x hp
        obtain ⟨p, hcp, hlenp, hsubp⟩ := inv.chains x hx
        refine ⟨v :: p, PrevChain.step hp hcp, by simp; omega, ?_⟩
        intro z hz
        rcases List.mem_cons.mp hz with rfl | h2
        · exact List.mem_cons_self _ _
        · exact List.mem_cons_of_mem _ (hsubp z h2)
    · obtain ⟨p, hcp, hlenp, hsubp⟩ := inv.chains v h
      refine ⟨p, hcp, by simp; omega, ?_⟩
      intro z hz
      exact List.mem_cons_of_mem _ (hsubp z hz)

/-! ## Relaxation lemmas -/

/-- `relaxOne` either leaves the state unchanged or performs the strict
improvement update. -/
theorem relaxOne_eq_or (g : Graph) (u : String) (c : ℚ) (st : DState)
    (y : String) :
    relaxOne g u c st y = st ∨
    (y ∉ st.visited ∧ ∃ e, findEdge g u y = some e ∧
      Cost.lt (.fin (c + e.weight)) (st.d y) ∧
      relaxOne g u c st y =
        { st with
          d := fun v => if v = y then .fin (c + e.weight) else st.d v
          prev := fun v => if v = y then some u else st.prev v
          pq := st.pq ++ [(c + e.weight, y)] }) := by
  unfold relaxOne
  by_cases hy : y ∈ st.visited
  · rw [if_pos hy]
    exact Or.inl rfl
  · rw [if_neg hy]
    cases hfe : findEdge g u y with
    | none => exact Or.inl rfl
    | some e =>
      dsimp only
      by_cases hlt : Cost.lt (.fin (c + e.weight)) (st.d y)
      · rw [if_pos hlt]
        exact Or.inr ⟨hy, e, rfl, hlt, rfl⟩
      · rw [if_neg hlt]
        exact Or.inl rfl

/-- Basic shape facts about `relaxOne`. -/
theorem relaxOne_facts (g : Graph) (u : String) (c : ℚ) (st : DState)
    (y : String) :
    (relaxOne g u c st y).visited = st.visited ∧
    (∀ v, Cost.le ((relaxOne g u c st y).d v) (st.d v)) ∧
    (∀ v, v ≠ y → (relaxOne g u c st y).d v = st.d v) ∧
    (∀ v, v ≠ y → (relaxOne g u c st y).prev v = st.prev v) ∧
    (relaxOne g u c st y).pq.length ≤ st.pq.length + 1 := by
  rcases relaxOne_eq_or g u c st y with h | ⟨hy, e, he, hlt, h⟩ <;> rw [h]
  · exact ⟨rfl, fun v => cost_le_refl _, fun _ _ => rfl, fun _ _ => rfl,
      Nat.le_succ _⟩
  · refine ⟨rfl, ?_, ?_, ?_, by simp⟩
    · intro v
      by_cases hv : v = y
      · show Cost.le (if v = y then _ else _) _
        rw [if_pos hv, hv]
        exact cost_le_of_lt hlt
      · show Cost.le (if v = y then _ else _) _
        rw [if_neg hv]
        exact cost_le_refl _
    · intro v hv
      show (if v = y then _ else _) = _
      rw [if_neg hv]
    · intro v hv
      show (if v = y then _ else _) = _
      rw [if_neg hv]

theorem relaxOne_d_visited {g : Graph} {u : String} {c : ℚ} {st : DState}
    {y v : String} (hv : v ∈ st.visited) :
    (relaxOne g u c st y).d v = st.d v := by
  rcases relaxOne_eq_or g u c st y with h | ⟨hy, e, he, hlt, h⟩ <;> rw [h]
  have hvy : v ≠ y := fun hc => hy (hc ▸ hv)
  show (if v = y then _ else _) = _
  rw [if_neg hvy]

/-- `relaxOne` preserves the basic invariant when `u` is a settled node
popped at its final distance `c`. -/
theorem relaxOne_DInv {g : Graph} {start : String} {st : DState}
    (inv : DInv g start st) {u : String} {c : ℚ}
    (hu : u ∈ st.visited) (hc : st.d u = .fin c) (y : String) :
    DInv g start (relaxOne g u c st y) := by
  rcases relaxOne_eq_or g u c st y with h | ⟨hy, e, he, hlt, h⟩
  · rw [h]; exact inv
  · rw [h]
    have hstart : start ∈ st.visited := by
      rcases inv.startmem with hs | ⟨hv, _⟩
      · exact hs
      · rw [hv] at hu
        simp at hu
    have hystart : y ≠ start := fun hys => hy (hys ▸ hstart)
    have hyu : u ≠ y := fun hc2 => hy (hc2 ▸ hu)
    constructor
    · exact inv.nodup
    · exact inv.vsub
    · intro en hen
      rcases List.mem_append.mp hen with h1 | h1
      · exact inv.qsub en h1
      · simp at h1
        rw [h1]
        exact Or.inr (findEdge_mem_nodes he).2
    · show (if start = y then _ else _) = _
      rw [if_neg (Ne.symm hystart)]
      exact inv.dstart
    · exact Or.inl hstart
    · intro v hv
      have hvy : v ≠ y := fun hc2 => hy (hc2 ▸ hv)
      show (if v = y then _ else _) ≠ _
      rw [if_neg hvy]
      exact inv.dfin v hv
    · intro v q hq
      by_cases hv : v = y
      · subst hv
        dsimp only at hq
        rw [if_pos rfl] at hq
        cases hq
        obtain ⟨p, hp, hw⟩ := inv.reachD u c hc
        obtain ⟨hp2, hw2⟩ := isPath_append_single hp he
        exact ⟨p ++ [v], hp2, by rw [hw2, hw]⟩
      · dsimp only at hq
        rw [if_neg hv] at hq
        exact inv.reachD v q hq
    · intro en hen
      rcases List.mem_append.mp hen with h1 | h1
      · exact inv.reachQ en h1
      · simp at h1
        rw [h1]
        obtain ⟨p, hp, hw⟩ := inv.reachD u c hc
        obtain ⟨hp2, hw2⟩ := isPath_append_single hp he
        exact ⟨p ++ [y], hp2, by rw [hw2, hw]⟩
    · intro en hen
      rcases List.mem_append.mp hen with h1 | h1
      · have h2 := inv.tentLe en h1
        by_cases hv : en.2 = y
        · show Cost.le (if en.2 = y then _ else _) _
          rw [if_pos hv]
          rw [hv] at h2
          exact cost_le_trans (cost_le_of_lt hlt) h2
        · show Cost.le (if en.2 = y then _ else _) _
          rw [if_neg hv]
          exact h2
      · simp at h1
        subst h1
        show Cost.le (if y = y then _ else _) _
        rw [if_pos rfl]
        exact cost_le_refl _
    · intro v hv q hq
      by_cases hvy : v = y
      · subst hvy
        dsimp only at hq
        rw [if_pos rfl] at hq
        cases hq
        exact List.mem_append_right _ (by simp)
      · dsimp only at hq
        rw [if_neg hvy] at hq
        exact List.mem_append_left _ (inv.rep v hv q hq)
    · intro v u' hp
      by_cases hvy : v = y
      · subst hvy
        dsimp only at hp
        rw [if_pos rfl] at hp
        cases hp
        refine ⟨hu, e, he, c, c + e.weight, ?_, ?_, rfl⟩
        · show (if u = v then _ else _) = _
          rw [if_neg hyu]
          exact hc
        · show (if v = v then _ else _) = _
          rw [if_pos rfl]
      · dsimp only at hp
        rw [if_neg hvy] at hp
        obtain ⟨h1, e', he', qu, qv, hdu, hdv, heq⟩ := inv.prevInv v u' hp
        have hu'y : u' ≠ y := fun hc2 => hy (hc2 ▸ h1)
        refine ⟨h1, e', he', qu, qv, ?_, ?_, heq⟩
        · show (if u' = y then _ else _) = _
          rw [if_neg hu'y]
          exact hdu
        · show (if v = y then _ else _) = _
          rw [if_neg hvy]
          exact hdv
    · intro v hp q hq
      by_cases hvy : v = y
      · subst hvy
        dsimp only at hp
        rw [if_pos rfl] at hp
        cases hp
      · dsimp only at hp hq
        rw [if_neg hvy] at hp hq
        exact inv.prevStart v hp q hq
    · intro v hv
      obtain ⟨p, hcp, hlenp, hsubp⟩ := inv.chains v hv
      refine ⟨p, prevChain_congr hcp ?_, hlenp, hsubp⟩
      intro x hx
      have hxy : x ≠ y := fun hc2 => hy (hc2 ▸ hsubp x hx)
      show (if x = y then _ else _) = _
      rw [if_neg hxy]

/-- The weight-dependent facts maintained during a relaxation pass:
optimality of settled nodes, edge-relaxedness of the previously settled
set `S0`, and the queue cost lower bound. -/
structure WRelax (g : Graph) (start : String) (st : DState)
    (S0 : List String) : Prop where
  settledOpt : ∀ v ∈ st.visited, ∀ q, st.d v = .fin q →
    ∀ p, IsPath g start v p → q ≤ pathWeight g p
  relaxedOn : ∀ u' ∈ S0, ∀ y e, findEdge g u' y = some e →
    Cost.le (st.d y) (Cost.addQ (st.d u') e.weight)
  mono : ∀ v ∈ st.visited, ∀ en ∈ st.pq, Cost.le (st.d v) (.fin en.1)

theorem relaxOne_WRelax {g : Graph} {start : String} {st : DState}
    {S0 : List String} {u : String} {c : ℚ} {y : String}
    (hS0 : ∀ x ∈ S0, x ∈ st.visited)
    (hu : u ∈ st.visited) (hc : st.d u = .fin c)
    (HW : ∀ e ∈ g, 0 ≤ e.2.2.weight)
    (hHc : ∀ v ∈ st.visited, Cost.le (st.d v) (.fin c))
    (w : WRelax g start st S0) :
    WRelax g start (relaxOne g u c st y) S0 := by
  obtain ⟨hvis, hdle, hdne, hpne, _⟩ := relaxOne_facts g u c st y
  constructor
  · intro v hv q hq
    rw [hvis] at hv
    rw [relaxOne_d_visited hv] at hq
    exact w.settledOpt v hv q hq
  · intro u' hu' y' e' he'
    have hu'v : u' ∈ st.visited := hS0 u' hu'
    rw [relaxOne_d_visited hu'v]
    exact cost_le_trans (hdle y') (w.relaxedOn u' hu' y' e' he')
  · intro v hv en hen
    rw [hvis] at hv
    rw [relaxOne_d_visited hv]
    rcases relaxOne_eq_or g u c st y with h | ⟨hy, e, he, hlt, h⟩
    · rw [h] at hen
      exact w.mono v hv en hen
    · rw [h] at hen
      rcases List.mem_append.mp hen with h1 | h1
      · exact w.mono v hv en h1
      · simp at h1
        subst h1
        show Cost.le (st.d v) (.fin (c + e.weight))
        have hw0 : 0 ≤ e.weight := findEdge_weight_nonneg HW he
        exact cost_le_trans (hHc v hv) (cost_le_fin_mono (by linarith))

theorem relaxOne_bound {g : Graph} {u : String} {c : ℚ} {st : DState}
    {y : String} {e : EdgeData} (he : findEdge g u y = some e)
    (HW : ∀ e ∈ g, 0 ≤ e.2.2.weight)
    (hHc : ∀ v ∈ st.visited, Cost.le (st.d v) (.fin c)) :
    Cost.le ((relaxOne g u c st y).d y) (.fin (c + e.weight)) := by
  have hw0 : 0 ≤ e.weight := findEdge_weight_nonneg HW he
  unfold relaxOne
  by_cases hy : y ∈ st.visited
  · rw [if_pos hy]
    exact cost_le_trans (hHc y hy) (cost_le_fin_mono (by linarith))
  · rw [if_neg hy, he]
    dsimp only
    by_cases hlt : Cost.lt (.fin (c + e.weight)) (st.d y)
    · rw [if_pos hlt]
      show Cost.le (if y = y then _ else _) _
      rw [if_pos rfl]
      exact cost_le_refl _
    · rw [if_neg hlt]
      exact cost_le_of_not_lt hlt

theorem relaxFold_visited (g : Graph) (u : String) (c : ℚ) :
    ∀ (ys : List String) (st : DState),
      (ys.foldl (relaxOne g u c) st).visited = st.visited := by
  intro ys
  induction ys with
  | nil => intro st; rfl
  | cons y rest ih =>
    intro st
    rw [List.foldl_cons, ih, (relaxOne_facts g u c st y).1]

theorem relaxFold_mono (g : Graph) (u : String) (c : ℚ) :
    ∀ (ys : List String) (st : DState) (v : String),
      Cost.le ((ys.foldl (relaxOne g u c) st).d v) (st.d v) := by
  intro ys
  induction ys with
  | nil => intro st v; exact cost_le_refl _
  | cons y rest ih =>
    intro st v
    rw [List.foldl_cons]
    exact cost_le_trans (ih _ v) ((relaxOne_facts g u c st y).2.1 v)

theorem relaxFold_facts {g : Graph} {start : String}
    (HW : ∀ e ∈ g, 0 ≤ e.2.2.weight) {u : String} {c : ℚ} :
    ∀ (ys : List String) (st : DState) (S0 : List String),
      DInv g start st → u ∈ st.visited → st.d u = .fin c →
      (∀ v ∈ st.visited, Cost.le (st.d v) (.fin c)) →
      (∀ x ∈ S0, x ∈ st.visited) → WRelax g start st S0 →
      DInv g start (ys.foldl (relaxOne g u c) st) ∧
        WRelax g start (ys.foldl (relaxOne g u c) st) S0 ∧
        (∀ v ∈ st.visited, (ys.foldl (relaxOne g u c) st).d v = st.d v) ∧
        (ys.foldl (relaxOne g u c) st).pq.length ≤ st.pq.length + ys.length := by
  intro ys
  induction ys with
  | nil =>
    intro st S0 inv hu hc hHc hS0 w
    exact ⟨inv, w, fun v _ => rfl, by simp⟩
  | cons y rest ih =>
    intro st S0 inv hu hc hHc hS0 w
    obtain ⟨hvis, hdle, hdne, hpne, hplen⟩ := relaxOne_facts g u c st y
    have inv1 : DInv g start (relaxOne g u c st y) := relaxOne_DInv inv hu hc y
    have hu1 : u ∈ (relaxOne g u c st y).visited := by rw [hvis]; exact hu
    have hc1 : (relaxOne g u c st y).d u = .fin c :=
      (relaxOne_d_visited hu).trans hc
    have hHc1 : ∀ v ∈ (relaxOne g u c st y).visited,
        Cost.le ((relaxOne g u c st y).d v) (.fin c) := by
      intro v hv
      rw [hvis] at hv
      rw [relaxOne_d_visited hv]
      exact hHc v hv
    have hS01 : ∀ x ∈ S0, x ∈ (relaxOne g u c st y).visited := by
      intro x hx
      rw [hvis]
      exact hS0 x hx
    have w1 : WRelax g start (relaxOne g u c st y) S0 :=
      relaxOne_WRelax hS0 hu hc HW hHc w
    obtain ⟨i2, w2, dv2, pl2⟩ := ih (relaxOne g u c st y) S0 inv1 hu1 hc1 hHc1 hS01 w1
    rw [List.foldl_cons]
    refine ⟨i2, w2, ?_, ?_⟩
    · intro v hv
      rw [dv2 v (by rw [hvis]; exact hv), relaxOne_d_visited hv]
    · calc (rest.foldl (relaxOne g u c) (relaxOne g u c st y)).pq.length
          ≤ (relaxOne g u c st y).pq.length + rest.length := pl2
        _ ≤ st.pq.length + 1 + rest.length := by omega
        _ = st.pq.length + (y :: rest).length := by simp; omega

theorem relaxFold_bound {g : Graph}
    (HW : ∀ e ∈ g, 0 ≤ e.2.2.weight) {u : String} {c : ℚ} :
    ∀ (ys : List String) (st : DState),
      (∀ v ∈ st.visited, Cost.le (st.d v) (.fin c)) →
      ∀ y e, findEdge g u y = some e → y ∈ ys →
        Cost.le ((ys.foldl (relaxOne g u c) st).d y) (.fin (c + e.weight)) := by
  intro ys
  induction ys with
  | nil => intro st _ y e _ hy; simp at hy
  | cons y0 rest ih =>
    intro st hHc y e he hy
    obtain ⟨hvis, hdle, hdne, hpne, hplen⟩ := relaxOne_facts g u c st y0
    have hHc1 : ∀ v ∈ (relaxOne g u c st y0).visited,
        Cost.le ((relaxOne g u c st y0).d v) (.fin c) := by
      intro v hv
      rw [hvis] at hv
      rw [relaxOne_d_visited hv]
      exact hHc v hv
    rw [List.foldl_cons]
    rcases List.mem_cons.mp hy with rfl | hm
    · exact cost_le_trans (relaxFold_mono g u c rest _ y)
        (relaxOne_bound he HW hHc)
    · exact ih (relaxOne g u c st y0) hHc1 y e he hm

theorem relaxFold_DInv {g : Graph} {start : String} {u : String} {c : ℚ} :
    ∀ (ys : List String) (st : DState), DInv g start st → u ∈ st.visited →
      st.d u = .fin c → DInv g start (ys.foldl (relaxOne g u c) st) := by
  intro ys
  induction ys with
  | nil => intro st inv _ _; exact inv
  | cons y rest ih =>
    intro st inv hu hc
    rw [List.foldl_cons]
    exact ih (relaxOne g u c st y)
      (relaxOne_DInv inv hu hc y)
      (by rw [(relaxOne_facts g u c st y).1]; exact hu)
      ((relaxOne_d_visited hu).trans hc)

/-- Settled nodes carry optimal distances (the first conclusion of the
classical Dijkstra invariant, and the only weight-dependent fact that
survives the early `break` on the target). -/
def SettledOpt (g : Graph) (start : String) (st : DState) : Prop :=
  ∀ v ∈ st.visited, ∀ q, st.d v = .fin q →
    ∀ p, IsPath g start v p → q ≤ pathWeight g p

/-- The popped cost of a freshly settled node is at most the weight of any
start-to-node path. -/
theorem settle_opt {g : Graph} {start : String} {st : DState}
    (inv : DInv g start st) (winv : WInv g start st)
    (HW : ∀ e ∈ g, 0 ≤ e.2.2.weight) {c : ℚ} {u : String}
    {rest : List (ℚ × String)}
    (hpop : popMin st.pq = some ((c, u), rest)) (hu : u ∉ st.visited) :
    ∀ p, IsPath g start u p → c ≤ pathWeight g p := by
  intro p hp
  obtain ⟨hmem, hrest, hmin, hlen⟩ := popMin_spec hpop
  obtain ⟨en, hen, hle⟩ := cover inv winv HW hu hp
  have h2 := hmin en hen
  linarith

/-- The state right after marking a popped node visited (the `let st1` of
`dijkstraLoop`). -/
def settleState (st : DState) (u : String) (rest : List (ℚ × String)) :
    DState :=
  { st with pq := rest, visited := u :: st.visited }

theorem settle_SettledOpt {g : Graph} {start : String} {st : DState}
    (inv : DInv g start st) (winv : WInv g start st)
    (HW : ∀ e ∈ g, 0 ≤ e.2.2.weight) {c : ℚ} {u : String}
    {rest : List (ℚ × String)}
    (hpop : popMin st.pq = some ((c, u), rest)) (hu : u ∉ st.visited) :
    SettledOpt g start (settleState st u rest) := by
  have hdu : st.d u = .fin c := settle_d_eq inv hpop hu
  intro v hv q hq p hp
  rcases List.mem_cons.mp hv with rfl | h
  · have hq' : st.d v = Cost.fin q := hq
    rw [hdu] at hq'
    cases hq'
    exact settle_opt inv winv HW hpop hu p hp
  · exact winv.settledOpt v h q hq p hp

theorem settle_WRelax {g : Graph} {start : String} {st : DState}
    (inv : DInv g start st) (winv : WInv g start st)
    (HW : ∀ e ∈ g, 0 ≤ e.2.2.weight) {c : ℚ} {u : String}
    {rest : List (ℚ × String)}
    (hpop : popMin st.pq = some ((c, u), rest)) (hu : u ∉ st.visited) :
    WRelax g start (settleState st u rest) st.visited := by
  obtain ⟨hmem, hrest, hmin, hlen⟩ := popMin_spec hpop
  have hdu : st.d u = .fin c := settle_d_eq inv hpop hu
  constructor
  · exact settle_SettledOpt inv winv HW hpop hu
  · intro u' hu' y e he
    exact winv.relaxed u' hu' y e he
  · intro v hv en hen
    have henpq : en ∈ st.pq := by
      rw [hrest] at hen
      exact List.mem_of_mem_erase hen
    rcases List.mem_cons.mp hv with rfl | h
    · show Cost.le (st.d v) (.fin en.1)
      rw [hdu]
      exact cost_le_fin_mono (hmin en henpq)
    · exact winv.mono v h en henpq

/-- Settling a popped node and relaxing all its neighbors preserves both
invariants.  This is the full non-break loop body. -/
theorem step_invs {g : Graph} {start : String} {st : DState}
    (inv : DInv g start st) (winv : WInv g start st)
    (HW : ∀ e ∈ g, 0 ≤ e.2.2.weight) {c : ℚ} {u : String}
    {rest : List (ℚ × String)}
    (hpop : popMin st.pq = some ((c, u), rest)) (hu : u ∉ st.visited) :
    DInv g start (relaxAll g u c (settleState st u rest)) ∧
    WInv g start (relaxAll g u c (settleState st u rest)) := by
  obtain ⟨hmem, hrest, hmin, hlen⟩ := popMin_spec hpop
  have hdu : st.d u = .fin c := settle_d_eq inv hpop hu
  have inv1 : DInv g start (settleState st u rest) := DInv_settle inv hpop hu
  have w1 : WRelax g start (settleState st u rest) st.visited :=
    settle_WRelax inv winv HW hpop hu
  have hu1 : u ∈ (settleState st u rest).visited := List.mem_cons_self _ _
  have hc1 : (settleState st u rest).d u = .fin c := hdu
  have hHc1 : ∀ v ∈ (settleState st u rest).visited,
      Cost.le ((settleState st u rest).d v) (.fin c) := by
    intro v hv
    rcases List.mem_cons.mp hv with rfl | h
    · show Cost.le (st.d v) _
      rw [hdu]
      exact cost_le_refl _
    · show Cost.le (st.d v) _
      exact winv.mono v h (c, u) hmem
  have hS0 : ∀ x ∈ st.visited, x ∈ (settleState st u rest).visited :=
    fun x hx => List.mem_cons_of_mem _ hx
  obtain ⟨i2, w2, dv2, _⟩ := relaxFold_facts HW (neighbors g u)
    (settleState st u rest) st.visited inv1 hu1 hc1 hHc1 hS0 w1
  have hvis2 : (relaxAll g u c (settleState st u rest)).visited =
      u :: st.visited := relaxFold_visited g u c (neighbors g u) _
  refine ⟨i2, ?_, ?_, w2.mono⟩
  · exact w2.settledOpt
  · intro v hv y e he
    rw [hvis2] at hv
    rcases List.mem_cons.mp hv with rfl | h
    · have hb := relaxFold_bound HW (neighbors g v) (settleState st v rest)
        hHc1 y e he (findEdge_imp_neighbor he)
      have hdu2 : (relaxAll g v c (settleState st v rest)).d v = .fin c :=
        (dv2 v hu1).trans hc1
      rw [hdu2]
      exact hb
    · exact w2.relaxedOn v h y e he

theorem relaxFold_pq_le (g : Graph) (u : String) (c : ℚ) :
    ∀ (ys : List String) (st : DState),
      (ys.foldl (relaxOne g u c) st).pq.length ≤ st.pq.length + ys.length := by
  intro ys
  induction ys with
  | nil => intro st; simp
  | cons y rest ih =>
    intro st
    rw [List.foldl_cons]
    calc (rest.foldl (relaxOne g u c) (relaxOne g u c st y)).pq.length
        ≤ (relaxOne g u c st y).pq.length + rest.length := ih _
      _ ≤ st.pq.length + 1 + rest.length :=
          Nat.add_le_add_right (relaxOne_facts g u c st y).2.2.2.2 _
      _ = st.pq.length + (y :: rest).length := by simp; omega

/-- The loop's termination measure: each unsettled graph node can be pushed
at most `|edges|` more times, plus one unit per pending queue entry. -/
def dMeasure (g : Graph) (st : DState) : ℕ :=
  ((nodesOf g).toFinset \ st.visited.toFinset).card * (g.length + 1) +
    st.pq.length

theorem sdiff_insert_card {S V : Finset String} {u : String}
    (hu : u ∈ S) (huv : u ∉ V) :
    (S \ insert u V).card + 1 = (S \ V).card := by
  have h1 : S \ insert u V = (S \ V).erase u := by
    ext x
    simp [Finset.mem_sdiff, Finset.mem_erase, Finset.mem_insert]
    tauto
  have h2 : u ∈ S \ V := Finset.mem_sdiff.mpr ⟨hu, huv⟩
  rw [h1, Finset.card_erase_of_mem h2]
  have h3 : 0 < (S \ V).card := Finset.card_pos.mpr ⟨u, h2⟩
  omega

/-- The weight-free invariant survives the whole loop, for any fuel. -/
theorem loop_DInv {g : Graph} {start tgt : String} :
    ∀ (fuel : ℕ) (st : DState), DInv g start st →
      DInv g start (dijkstraLoop g tgt fuel st) := by
  intro fuel
  induction fuel with
  | zero => intro st inv; exact inv
  | succ n ih =>
    intro st inv
    rw [dijkstraLoop]
    cases hpop : popMin st.pq with
    | none => exact inv
    | some pr =>
      obtain ⟨⟨c, u⟩, rest⟩ := pr
      dsimp only
      by_cases hv : u ∈ st.visited
      · rw [if_pos hv]
        exact ih _ (DInv_skip inv hpop hv)
      · rw [if_neg hv]
        have inv1 : DInv g start (settleState st u rest) :=
          DInv_settle inv hpop hv
        by_cases ht : u = tgt
        · rw [if_pos ht]
          exact inv1
        · rw [if_neg ht]
          have hdu : st.d u = .fin c := settle_d_eq inv hpop hv
          exact ih _ (relaxFold_DInv (neighbors g u) (settleState st u rest)
            inv1 (List.mem_cons_self _ _) hdu)

/-- Master loop lemma: with enough fuel the loop preserves settled
optimality and either settles the target or drains the queue (keeping the
full weight invariant in the latter case). -/
theorem loop_correct {g : Graph} {start tgt : String}
    (HW : ∀ e ∈ g, 0 ≤ e.2.2.weight) :
    ∀ (fuel : ℕ) (st : DState), DInv g start st → WInv g start st →
      dMeasure g st ≤ fuel →
      SettledOpt g start (dijkstraLoop g tgt fuel st) ∧
        (tgt ∈ (dijkstraLoop g tgt fuel st).visited ∨
          ((dijkstraLoop g tgt fuel st).pq = [] ∧
            WInv g start (dijkstraLoop g tgt fuel st))) := by
  intro fuel
  induction fuel with
  | zero =>
    intro st inv winv hmu
    have hpq : st.pq = [] := by
      unfold dMeasure at hmu
      exact List.length_eq_zero.mp (by omega)
    exact ⟨winv.settledOpt, Or.inr ⟨hpq, winv⟩⟩
  | succ n ih =>
    intro st inv winv hmu
    rw [dijkstraLoop]
    cases hpop : popMin st.pq with
    | none => exact ⟨winv.settledOpt, Or.inr ⟨popMin_none.mp hpop, winv⟩⟩
    | some pr =>
      obtain ⟨⟨c, u⟩, rest⟩ := pr
      obtain ⟨hmem, hrest, hmin, hlen⟩ := popMin_spec hpop
      dsimp only
      by_cases hv : u ∈ st.visited
      · rw [if_pos hv]
        apply ih _ (DInv_skip inv hpop hv) (WInv_skip winv hpop)
        unfold dMeasure at hmu ⊢
        dsimp only
        omega
      · rw [if_neg hv]
        by_cases ht : u = tgt
        · rw [if_pos ht]
          refine ⟨settle_SettledOpt inv winv HW hpop hv, Or.inl ?_⟩
          show tgt ∈ u :: st.visited
          rw [← ht]
          exact List.mem_cons_self _ _
        · rw [if_neg ht]
          obtain ⟨inv2, winv2⟩ := step_invs inv winv HW hpop hv
          apply ih _ inv2 winv2
          have hpq2 : (relaxAll g u c (settleState st u rest)).pq.length ≤
              rest.length + (neighbors g u).length :=
            relaxFold_pq_le g u c (neighbors g u) _
          have hnb : (neighbors g u).length ≤ g.length :=
            neighbors_length_le g u
          have hvis2 : (relaxAll g u c (settleState st u rest)).visited =
              u :: st.visited := relaxFold_visited g u c (neighbors g u) _
          unfold dMeasure at hmu ⊢
          rw [hvis2]
          by_cases hun : u ∈ nodesOf g
          · have hins : ((nodesOf g).toFinset \
                (u :: st.visited).toFinset).card + 1 =
                ((nodesOf g).toFinset \ st.visited.toFinset).card := by
              rw [List.toFinset_cons]
              exact sdiff_insert_card (List.mem_toFinset.mpr hun)
                (fun h => hv (List.mem_toFinset.mp h))
            rw [← hins, add_one_mul] at hmu
            omega
          · have hnil : neighbors g u = [] := neighbors_nil_of_not_node hun
            have hsame : relaxAll g u c (settleState st u rest) =
                settleState st u rest := by
              unfold relaxAll
              rw [hnil]
              rfl
            rw [hsame]
            have hsub : ((nodesOf g).toFinset \ (u :: st.visited).toFinset) ⊆
                ((nodesOf g).toFinset \ st.visited.toFinset) := by
              intro x hx
              simp [List.toFinset_cons, Finset.mem_sdiff] at hx ⊢
              tauto
            have hmul := Nat.mul_le_mul_right (g.length + 1)
              (Finset.card_le_card hsub)
            show _ * _ + (settleState st u rest).pq.length ≤ n
            have hrl : (settleState st u rest).pq.length = rest.length := rfl
            rw [hrl]
            omega

theorem dMeasure_init (g : Graph) (start : String) :
    dMeasure g (initState start) ≤ dijkstraFuel g := by
  unfold dMeasure initState dijkstraFuel
  dsimp only
  have h1 : ((nodesOf g).toFinset \ (([] : List String)).toFinset).card ≤
      (nodesOf g).length := by
    rw [List.toFinset_nil, Finset.sdiff_empty]
    exact List.toFinset_card_le _
  have h2 := Nat.mul_le_mul_right (g.length + 1) h1
  simp only [List.length_singleton]
  omega

/-- The basic invariant holds at the end of the search. -/
theorem runDijkstra_DInv (g : Graph) (start tgt : String) :
    DInv g start (runDijkstra g start tgt) :=
  loop_DInv (dijkstraFuel g) (initState start) (DInv_init g start)

theorem runDijkstra_correct (g : Graph) (start tgt : String)
    (HW : ∀ e ∈ g, 0 ≤ e.2.2.weight) :
    SettledOpt g start (runDijkstra g start tgt) ∧
      (tgt ∈ (runDijkstra g start tgt).visited ∨
        ((runDijkstra g start tgt).pq = [] ∧
          WInv g start (runDijkstra g start tgt))) :=
  loop_correct HW (dijkstraFuel g) (initState start)
    (DInv_init g start) (WInv_init g start) (dMeasure_init g start)

/-- A reachable target is settled when the loop ends. -/
theorem runDijkstra_settles {g : Graph} {start tgt : String}
    (HW : ∀ e ∈ g, 0 ≤ e.2.2.weight) {p : List String}
    (hp : IsPath g start tgt p) :
    tgt ∈ (runDijkstra g start tgt).visited := by
  rcases (runDijkstra_correct g start tgt HW).2 with h | ⟨hpq, winv⟩
  · exact h
  · by_contra hnot
    obtain ⟨en, hen, _⟩ :=
      cover (runDijkstra_DInv g start tgt) winv HW hnot hp
    rw [hpq] at hen
    simp at hen

/-- A reachable target ends with a finite, optimal distance. -/
theorem runDijkstra_opt {g : Graph} {start tgt : String}
    (HW : ∀ e ∈ g, 0 ≤ e.2.2.weight) {p : List String}
    (hp : IsPath g start tgt p) :
    ∃ c : ℚ, (runDijkstra g start tgt).d tgt = .fin c ∧
      ∀ p2, IsPath g start tgt p2 → c ≤ pathWeight g p2 := by
  have hset := runDijkstra_settles HW hp
  have inv := runDijkstra_DInv g start tgt
  have hfin := inv.dfin tgt hset
  cases hd : (runDijkstra g start tgt).d tgt with
  | inf => exact absurd hd hfin
  | fin c =>
    refine ⟨c, rfl, ?_⟩
    intro p2 hp2
    exact (runDijkstra_correct g start tgt HW).1 tgt hset c hd p2 hp2

/-- Whenever the final distance of the target is finite, the reconstructed
(reversed predecessor walk) node list is a start-to-target path realizing
that distance. -/
theorem runDijkstra_path {g : Graph} {start tgt : String} {c : ℚ}
    (hd : (runDijkstra g start tgt).d tgt = .fin c) :
    IsPath g start tgt
      ((walkPrev (runDijkstra g start tgt).prev
        ((nodesOf g).length + 2) tgt).reverse) ∧
    pathWeight g ((walkPrev (runDijkstra g start tgt).prev
        ((nodesOf g).length + 2) tgt).reverse) = c := by
  have inv := runDijkstra_DInv g start tgt
  obtain ⟨p, hchain, hlenp⟩ := chain_of_fin inv tgt c hd
  have hvl := visited_length_le inv
  have hlen2 : p.length ≤ (nodesOf g).length + 2 := by omega
  rw [prevChain_walkPrev hchain _ hlen2]
  exact chain_path inv hchain c hd

/-- C1: for every built graph whose edge weights are all non-negative and
for every start and end node of that graph, if the end is reachable from
the start then `dijkstra_shortest_path` returns (without raising) a node
sequence that is a start-to-end path, together with a finite total cost
equal to that path's edge-weight sum, and that cost is minimal among all
start-to-end paths; the third component is that path's detail record. -/
theorem claim_C1 (r : Router) (g : Graph) (start tgt : String)
    (HW : ∀ e ∈ g, 0 ≤ e.2.2.weight)
    (hs : start ∈ nodesOf g) (ht : tgt ∈ nodesOf g)
    (hreach : ∃ p, IsPath g start tgt p) :
    ∃ (p : List String) (c : ℚ),
      dijkstra_shortest_path r g start tgt =
        .ok (p, .fin c, _get_path_details r g p) ∧
      IsPath g start tgt p ∧ pathWeight g p = c ∧
      ∀ p2, IsPath g start tgt p2 → c ≤ pathWeight g p2 := by
  obtain ⟨p0, hp0⟩ := hreach
  obtain ⟨c, hd, hopt⟩ := runDijkstra_opt HW hp0
  obtain ⟨hpath, hw⟩ := runDijkstra_path hd
  refine ⟨(walkPrev (runDijkstra g start tgt).prev
    ((nodesOf g).length + 2) tgt).reverse, c, ?_, hpath, hw, hopt⟩
  have h1 : snapNode g start = .ok start := by
    unfold snapNode
    rw [if_pos hs]
  have h2 : snapNode g tgt = .ok tgt := by
    unfold snapNode
    rw [if_pos ht]
  have hne : (runDijkstra g start tgt).d tgt ≠ Cost.inf := by
    rw [hd]
    exact fun h => Cost.noConfusion h
  unfold dijkstra_shortest_path
  rw [h1, h2]
  dsimp only
  rw [if_neg hne, hd]

/-- Witness for C1 on the square scenario under the "safety" strategy. -/
theorem claim_C1_witness :
    (∀ e ∈ create_enhanced_graph sqRouter "safety" 2, 0 ≤ e.2.2.weight) ∧
    "0,0" ∈ nodesOf (create_enhanced_graph sqRouter "safety" 2) ∧
    "10,10" ∈ nodesOf (create_enhanced_graph sqRouter "safety" 2) ∧
    (∃ p, IsPath (create_enhanced_graph sqRouter "safety" 2)
      "0,0" "10,10" p) ∧
    (∃ (p : List String) (c : ℚ),
      dijkstra_shortest_path sqRouter
          (create_enhanced_graph sqRouter "safety" 2) "0,0" "10,10" =
        .ok (p, .fin c, _get_path_details sqRouter
          (create_enhanced_graph sqRouter "safety" 2) p) ∧
      IsPath (create_enhanced_graph sqRouter "safety" 2) "0,0" "10,10" p ∧
      pathWeight (create_enhanced_graph sqRouter "safety" 2) p = c ∧
      ∀ p2, IsPath (create_enhanced_graph sqRouter "safety" 2)
        "0,0" "10,10" p2 →
        c ≤ pathWeight (create_enhanced_graph sqRouter "safety" 2) p2) := by
  have hw : ∀ e ∈ create_enhanced_graph sqRouter "safety" 2,
      0 ≤ e.2.2.weight :=
    of_decide_eq_true (by with_unfolding_all rfl)
  have hs : "0,0" ∈ nodesOf (create_enhanced_graph sqRouter "safety" 2) :=
    of_decide_eq_true (by with_unfolding_all rfl)
  have ht : "10,10" ∈ nodesOf (create_enhanced_graph sqRouter "safety" 2) :=
    of_decide_eq_true (by with_unfolding_all rfl)
  have hr : ∃ p, IsPath (create_enhanced_graph sqRouter "safety" 2)
      "0,0" "10,10" p :=
    ⟨["0,0", "0,10", "10,10"],
     List.cons_ne_nil _ _, rfl, rfl,
     List.chain'_cons.mpr ⟨of_decide_eq_true (by with_unfolding_all rfl),
       List.chain'_cons.mpr ⟨of_decide_eq_true (by with_unfolding_all rfl),
         List.chain'_singleton _⟩⟩⟩
  exact ⟨hw, hs, ht, hr, claim_C1 sqRouter _ "0,0" "10,10" hw hs ht hr⟩

/-- If a node set `L` contains `s`, excludes `t`, and is closed under
graph edges, then no path joins `s` to `t`. -/
theorem no_path_of_closed {g : Graph} {L : List String} {s t : String}
    (hs : s ∈ L) (ht : t ∉ L)
    (hclosed : ∀ a ∈ L, ∀ b ∈ nodesOf g, hasEdge g a b → b ∈ L) :
    ∀ p, ¬ IsPath g s t p := by
  have key : ∀ (p : List String) (a : String), a ∈ L →
      List.Chain' (hasEdge g) (a :: p) → ∀ x ∈ a :: p, x ∈ L := by
    intro p
    induction p with
    | nil =>
      intro a ha _ x hx
      simp at hx
      rwa [hx]
    | cons b rest ih =>
      intro a ha hchain x hx
      have hab : hasEdge g a b := (List.chain'_cons.mp hchain).1
      have hbn : b ∈ nodesOf g := by
        unfold hasEdge at hab
        cases hfe : findEdge g a b with
        | none => exact absurd hfe hab
        | some e => exact (findEdge_mem_nodes hfe).2
      have hb : b ∈ L := hclosed a ha b hbn hab
      rcases List.mem_cons.mp hx with rfl | hx2
      · exact ha
      · exact ih b hb (List.chain'_cons.mp hchain).2 x hx2
  intro p hp
  obtain ⟨hne, hhead, hlast, hchain⟩ := hp
  cases p with
  | nil => exact hne rfl
  | cons a rest =>
    have has : a = s := by simpa using hhead
    subst has
    have hmem : t ∈ a :: rest := by
      obtain ⟨h9, ht9⟩ := List.mem_getLast?_eq_getLast hlast
      rw [ht9]
      exact List.getLast_mem h9
    exact ht (key rest a hs hchain t hmem)

/-- C3: for every built graph and every start and end node of it such that
the end is unreachable from the start, `dijkstra_shortest_path` returns
(without raising) an empty path, the infinite cost and empty details, and
`find_optimal_route` consequently returns the structured failure record
with `success = false`, an empty path and `total_cost = +inf`. -/
theorem claim_C3 (r : Router) (g : Graph) (start tgt cf : String)
    (hg : g = create_enhanced_graph r cf 2)
    (hs : start ∈ nodesOf g) (ht : tgt ∈ nodesOf g)
    (hunreach : ∀ p, ¬ IsPath g start tgt p) :
    dijkstra_shortest_path r g start tgt = .ok ([], Cost.inf, []) ∧
    find_optimal_route r start tgt cf = .ok failureDict ∧
    dictGetV failureDict "success" = some (.bool false) ∧
    dictGetV failureDict "path" = some (.strList []) ∧
    dictGetV failureDict "total_cost" = some (.num .inf) := by
  have hinf : (runDijkstra g start tgt).d tgt = Cost.inf := by
    cases hd : (runDijkstra g start tgt).d tgt with
    | inf => rfl
    | fin q =>
      obtain ⟨p, hp, _⟩ := (runDijkstra_DInv g start tgt).reachD tgt q hd
      exact absurd hp (hunreach p)
  have h1 : snapNode g start = .ok start := by
    unfold snapNode
    rw [if_pos hs]
  have h2 : snapNode g tgt = .ok tgt := by
    unfold snapNode
    rw [if_pos ht]
  have hds : dijkstra_shortest_path r g start tgt =
      .ok ([], Cost.inf, []) := by
    unfold dijkstra_shortest_path
    rw [h1, h2]
    dsimp only
    rw [if_pos hinf]
  refine ⟨hds, ?_, rfl, rfl, rfl⟩
  unfold find_optimal_route
  rw [← hg, hds]
  rfl

/-- A router whose listed "component" merges two genuinely disconnected
two-node clusters, so the built graph keeps both and the pair is
unreachable. -/
def splitRouter : Router :=
  { graph_data :=
      [⟨"1", "0,0", "0,1", 1⟩,
       ⟨"2", "5,5", "5,6", 1⟩]
    safety_weights := []
    connected_components := [["0,0", "0,1", "5,5", "5,6"]]
    segment_id_map := [] }

/-- Witness for C3 on the split scenario. -/
theorem claim_C3_witness :
    ("0,0" ∈ nodesOf (create_enhanced_graph splitRouter "distance" 2) ∧
     "5,5" ∈ nodesOf (create_enhanced_graph splitRouter "distance" 2) ∧
     (∀ p, ¬ IsPath (create_enhanced_graph splitRouter "distance" 2)
        "0,0" "5,5" p)) ∧
    (dijkstra_shortest_path splitRouter
        (create_enhanced_graph splitRouter "distance" 2) "0,0" "5,5" =
      .ok ([], Cost.inf, []) ∧
     find_optimal_route splitRouter "0,0" "5,5" "distance" =
      .ok failureDict ∧
     dictGetV failureDict "success" = some (.bool false) ∧
     dictGetV failureDict "path" = some (.strList []) ∧
     dictGetV failureDict "total_cost" = some (.num .inf)) := by
  have hs : "0,0" ∈ nodesOf (create_enhanced_graph splitRouter "distance" 2) :=
    of_decide_eq_true (by with_unfolding_all rfl)
  have ht : "5,5" ∈ nodesOf (create_enhanced_graph splitRouter "distance" 2) :=
    of_decide_eq_true (by with_unfolding_all rfl)
  have hcl : ∀ a ∈ ["0,0", "0,1"],
      ∀ b ∈ nodesOf (create_enhanced_graph splitRouter "distance" 2),
      hasEdge (create_enhanced_graph splitRouter "distance" 2) a b →
        b ∈ ["0,0", "0,1"] :=
    of_decide_eq_true (by with_unfolding_all rfl)
  have hun : ∀ p, ¬ IsPath (create_enhanced_graph splitRouter "distance" 2)
      "0,0" "5,5" p :=
    no_path_of_closed (List.mem_cons_self _ _)
      (of_decide_eq_true (by with_unfolding_all rfl)) hcl
  exact ⟨⟨hs, ht, hun⟩,
    claim_C3 splitRouter _ "0,0" "5,5" "distance" rfl hs ht hun⟩

/-! ## Locator lemmas -/

/-- Ordering on candidate pairs by the stored (squared) distance. -/
def distLe (a b : String × ℚ) : Prop := a.2 ≤ b.2

theorem insertSorted_mem (x : String × ℚ) :
    ∀ (l : List (String × ℚ)) (z : String × ℚ),
      z ∈ insertSorted x l ↔ z = x ∨ z ∈ l := by
  intro l
  induction l with
  | nil => intro z; simp [insertSorted]
  | cons y ys ih =>
    intro z
    unfold insertSorted
    split
    · simp
    · rw [List.mem_cons, ih z, List.mem_cons]
      tauto

theorem insertSorted_length (x : String × ℚ) :
    ∀ (l : List (String × ℚ)),
      (insertSorted x l).length = l.length + 1 := by
  intro l
  induction l with
  | nil => rfl
  | cons y ys ih =>
    unfold insertSorted
    split
    · simp
    · simp [ih]

theorem insertSorted_sorted (x : String × ℚ) :
    ∀ (l : List (String × ℚ)), l.Pairwise distLe →
      (insertSorted x l).Pairwise distLe := by
  intro l
  induction l with
  | nil => intro _; simp [insertSorted, List.pairwise_singleton]
  | cons y ys ih =>
    intro hp
    obtain ⟨hy, hys⟩ := List.pairwise_cons.mp hp
    unfold insertSorted
    split
    · rename_i hlt
      refine List.pairwise_cons.mpr ⟨?_, hp⟩
      intro z hz
      rcases List.mem_cons.mp hz with rfl | hz2
      · exact le_of_lt hlt
      · exact le_trans (le_of_lt hlt) (hy z hz2)
    · rename_i hnlt
      refine List.pairwise_cons.mpr ⟨?_, ih hys⟩
      intro z hz
      rcases (insertSorted_mem x ys z).mp hz with rfl | hz2
      · exact le_of_not_lt hnlt
      · exact hy z hz2

theorem sortFold_facts :
    ∀ (l acc : List (String × ℚ)), acc.Pairwise distLe →
      (l.foldl (fun a x => insertSorted x a) acc).Pairwise distLe ∧
      (∀ z, z ∈ l.foldl (fun a x => insertSorted x a) acc ↔
        z ∈ acc ∨ z ∈ l) ∧
      (l.foldl (fun a x => insertSorted x a) acc).length =
        acc.length + l.length := by
  intro l
  induction l with
  | nil =>
    intro acc hacc
    exact ⟨hacc, fun z => by simp, by simp⟩
  | cons x rest ih =>
    intro acc hacc
    obtain ⟨hs, hm, hl⟩ := ih (insertSorted x acc) (insertSorted_sorted x acc hacc)
    rw [List.foldl_cons]
    refine ⟨hs, ?_, ?_⟩
    · intro z
      rw [hm z, insertSorted_mem, List.mem_cons]
      tauto
    · rw [hl, insertSorted_length]
      simp
      omega

theorem sortPairs_facts (l : List (String × ℚ)) :
    (sortPairs l).Pairwise distLe ∧
    (∀ z, z ∈ sortPairs l ↔ z ∈ l) ∧
    (sortPairs l).length = l.length := by
  obtain ⟨hs, hm, hl⟩ := sortFold_facts l [] List.Pairwise.nil
  unfold sortPairs
  refine ⟨hs, ?_, by simpa using hl⟩
  intro z
  rw [hm z]
  simp

theorem nodeDists_ok {tx ty : ℚ} :
    ∀ (ns : List String), (∀ n ∈ ns, parseCoords n ≠ none) →
      ∃ l, nodeDists tx ty ns = .ok l ∧ l.length = ns.length ∧
        (∀ pr ∈ l, pr.1 ∈ ns ∧ ∃ nc, parseCoords pr.1 = some nc ∧
          pr.2 = sqDist (tx, ty) nc) ∧
        (∀ n ∈ ns, ∀ nc, parseCoords n = some nc →
          (n, sqDist (tx, ty) nc) ∈ l) := by
  intro ns
  induction ns with
  | nil =>
    intro _
    exact ⟨[], rfl, rfl, fun pr hpr => by simp at hpr, fun n hn => by simp at hn⟩
  | cons n0 rest ih =>
    intro hall
    obtain ⟨l, hl, hlen, hform, hcompl⟩ :=
      ih (fun n hn => hall n (List.mem_cons_of_mem _ hn))
    cases hp0 : parseCoords n0 with
    | none => exact absurd hp0 (hall n0 (List.mem_cons_self _ _))
    | some nc0 =>
      refine ⟨(n0, sqDist (tx, ty) nc0) :: l, ?_, by simp [hlen], ?_, ?_⟩
      · unfold nodeDists
        rw [hp0, hl]
      · intro pr hpr
        rcases List.mem_cons.mp hpr with rfl | hpr2
        · exact ⟨List.mem_cons_self _ _, nc0, hp0, rfl⟩
        · obtain ⟨h1, h2⟩ := hform pr hpr2
          exact ⟨List.mem_cons_of_mem _ h1, h2⟩
      · intro n hn nc hnc
        rcases List.mem_cons.mp hn with rfl | hn2
        · rw [hp0] at hnc
          cases hnc
          exact List.mem_cons_self _ _
        · exact List.mem_cons_of_mem _ (hcompl n hn2 nc hnc)

/-- `find_closest_nodes` with `k = 1` on a parseable query over a nonempty
all-parseable node set: it succeeds and returns exactly the (first) node
minimizing the stored distance among all graph nodes. -/
theorem find_closest_one {g : Graph} {s : String} {tc : ℚ × ℚ}
    (hq : parseCoords s = some tc)
    (hnodes : ∀ n ∈ nodesOf g, parseCoords n ≠ none)
    (hne : nodesOf g ≠ []) :
    ∃ best, find_closest_nodes g s 1 = .ok [best] ∧
      best.1 ∈ nodesOf g ∧
      (∃ nc, parseCoords best.1 = some nc ∧ best.2 = sqDist tc nc) ∧
      (∀ n ∈ nodesOf g, ∀ nc, parseCoords n = some nc →
        best.2 ≤ sqDist tc nc) := by
  obtain ⟨l, hl, hlen, hform, hcompl⟩ :=
    @nodeDists_ok tc.1 tc.2 (nodesOf g) hnodes
  obtain ⟨hsorted, hmem, hslen⟩ := sortPairs_facts l
  have hlpos : 0 < l.length := by
    cases hn : nodesOf g with
    | nil => exact absurd hn hne
    | cons a b =>
      rw [hn] at hlen
      rw [hlen]
      simp
  cases hsp : sortPairs l with
  | nil =>
    rw [hsp] at hslen
    simp at hslen
    omega
  | cons best tl =>
    have hbmem : best ∈ l := (hmem best).mp (by
      rw [hsp]
      exact List.mem_cons_self _ _)
    refine ⟨best, ?_, (hform best hbmem).1, ?_, ?_⟩
    · unfold find_closest_nodes
      rw [hq]
      dsimp only
      rw [hl]
      dsimp only
      rw [hsp]
      rfl
    · obtain ⟨_, nc, h1, h2⟩ := hform best hbmem
      exact ⟨nc, h1, h2⟩
    · intro n hn nc hnc
      have hin : (n, sqDist (tc.1, tc.2) nc) ∈ sortPairs l :=
        (hmem _).mpr (hcompl n hn nc hnc)
      rw [hsp] at hin
      rw [hsp] at hsorted
      rcases List.mem_cons.mp hin with heq | hin2
      · exact le_of_eq (by rw [← heq])
      · exact (List.pairwise_cons.mp hsorted).1 _ hin2

/-- Any nonempty path returned by `dijkstra_shortest_path` begins at the
snapped start node and ends at the snapped end node. -/
theorem dijkstra_ok_endpoints {r : Router} {g : Graph} {s0 t0 : String}
    {p : List String} {c : Cost} {det : PyDict}
    (h : dijkstra_shortest_path r g s0 t0 = .ok (p, c, det)) (hp : p ≠ []) :
    ∃ s1 t1, snapNode g s0 = .ok s1 ∧ snapNode g t0 = .ok t1 ∧
      p.head? = some s1 ∧ p.getLast? = some t1 := by
  unfold dijkstra_shortest_path at h
  cases h1 : snapNode g s0 with
  | error e =>
    rw [h1] at h
    exact Except.noConfusion h
  | ok s1 =>
    rw [h1] at h
    cases h2 : snapNode g t0 with
    | error e =>
      rw [h2] at h
      exact Except.noConfusion h
    | ok t1 =>
      rw [h2] at h
      dsimp only at h
      by_cases hinf : (runDijkstra g s1 t1).d t1 = Cost.inf
      · rw [if_pos hinf] at h
        injection h with h3
        injection h3 with h4 h5
        exact absurd h4.symm hp
      · rw [if_neg hinf] at h
        injection h with h3
        injection h3 with h4 h5
        cases hd : (runDijkstra g s1 t1).d t1 with
        | inf => exact absurd hd hinf
        | fin q =>
          have inv := runDijkstra_DInv g s1 t1
          obtain ⟨pc, hchain, hlenp⟩ := chain_of_fin inv t1 q hd
          have hvl := visited_length_le inv
          have hlen2 : pc.length ≤ (nodesOf g).length + 2 := by omega
          obtain ⟨hpath, _⟩ := chain_path inv hchain q hd
          obtain ⟨_, hhead, hlast, _⟩ := hpath
          rw [prevChain_walkPrev hchain _ hlen2] at h4
          rw [← h4]
          exact ⟨s1, t1, rfl, rfl, hhead, hlast⟩

/-- C4: whenever the queried coordinate string is not an exact node of the
graph, the solver substitutes the graph node at minimum distance from the
query point, namely the first element of `find_closest_nodes` with k = 1,
which returns candidate (node, distance) pairs sorted ascending by
distance; any nonempty returned path then begins (when the query is the
start) or ends (when the query is the end) at that nearest node.  The model
stores squared Euclidean distances where the source stores `np.sqrt` of
them; the square root is strictly monotone on nonnegative reals, so the
sort order and the selected nearest node are identical. -/
theorem claim_C4 (r : Router) (g : Graph) (s : String) (tc : ℚ × ℚ)
    (hq : parseCoords s = some tc)
    (hnodes : ∀ n ∈ nodesOf g, parseCoords n ≠ none)
    (hs : s ∉ nodesOf g) (hne : nodesOf g ≠ []) :
    ∃ best, find_closest_nodes g s 1 = .ok [best] ∧
      best.1 ∈ nodesOf g ∧
      (∃ nc, parseCoords best.1 = some nc ∧ best.2 = sqDist tc nc) ∧
      (∀ n ∈ nodesOf g, ∀ nc, parseCoords n = some nc →
        best.2 ≤ sqDist tc nc) ∧
      snapNode g s = .ok best.1 ∧
      (∀ t0 p c det, dijkstra_shortest_path r g s t0 = .ok (p, c, det) →
        p ≠ [] → p.head? = some best.1) ∧
      (∀ s0 p c det, dijkstra_shortest_path r g s0 s = .ok (p, c, det) →
        p ≠ [] → p.getLast? = some best.1) := by
  obtain ⟨best, hfc, hbm, hbv, hmin⟩ := find_closest_one hq hnodes hne
  have hsnap : snapNode g s = .ok best.1 := by
    unfold snapNode
    rw [if_neg hs, hfc]
  refine ⟨best, hfc, hbm, hbv, hmin, hsnap, ?_, ?_⟩
  · intro t0 p c det h hp
    obtain ⟨s1, t1, hs1, _, hh, _⟩ := dijkstra_ok_endpoints h hp
    rw [hsnap] at hs1
    injection hs1 with h9
    rw [hh, ← h9]
  · intro s0 p c det h hp
    obtain ⟨s1, t1, _, ht1, _, hl⟩ := dijkstra_ok_endpoints h hp
    rw [hsnap] at ht1
    injection ht1 with h9
    rw [hl, ← h9]

/-- Witness for C4: query "1,1" against the square scenario. -/
theorem claim_C4_witness :
    (parseCoords "1,1" = some (1, 1) ∧
     (∀ n ∈ nodesOf (create_enhanced_graph sqRouter "distance" 2),
       parseCoords n ≠ none) ∧
     "1,1" ∉ nodesOf (create_enhanced_graph sqRouter "distance" 2) ∧
     nodesOf (create_enhanced_graph sqRouter "distance" 2) ≠ []) ∧
    (∃ best, find_closest_nodes (create_enhanced_graph sqRouter "distance" 2)
        "1,1" 1 = .ok [best] ∧
      best.1 ∈ nodesOf (create_enhanced_graph sqRouter "distance" 2) ∧
      (∃ nc, parseCoords best.1 = some nc ∧ best.2 = sqDist (1, 1) nc) ∧
      (∀ n ∈ nodesOf (create_enhanced_graph sqRouter "distance" 2),
        ∀ nc, parseCoords n = some nc → best.2 ≤ sqDist (1, 1) nc) ∧
      snapNode (create_enhanced_graph sqRouter "distance" 2) "1,1" =
        .ok best.1 ∧
      (∀ t0 p c det, dijkstra_shortest_path sqRouter
          (create_enhanced_graph sqRouter "distance" 2) "1,1" t0 =
          .ok (p, c, det) → p ≠ [] → p.head? = some best.1) ∧
      (∀ s0 p c det, dijkstra_shortest_path sqRouter
          (create_enhanced_graph sqRouter "distance" 2) s0 "1,1" =
          .ok (p, c, det) → p ≠ [] → p.getLast? = some best.1)) := by
  have hq : parseCoords "1,1" = some (1, 1) :=
    of_decide_eq_true (by with_unfolding_all rfl)
  have hnodes : ∀ n ∈ nodesOf (create_enhanced_graph sqRouter "distance" 2),
      parseCoords n ≠ none :=
    of_decide_eq_true (by with_unfolding_all rfl)
  have hs : "1,1" ∉ nodesOf (create_enhanced_graph sqRouter "distance" 2) :=
    of_decide_eq_true (by with_unfolding_all rfl)
  have hne : nodesOf (create_enhanced_graph sqRouter "distance" 2) ≠ [] :=
    of_decide_eq_true (by with_unfolding_all rfl)
  exact ⟨⟨hq, hnodes, hs, hne⟩,
    claim_C4 sqRouter _ "1,1" (1, 1) hq hnodes hs hne⟩
